import Mathlib

/-!
Verification of the canctool tool-call pipeline (sligter/canctool).

This file embeds, as Lean definitions over lists of characters, the core of
the pipeline implemented in src/canctool/prompt_engineering.py,
src/canctool/response_formatter.py and src/canctool/llm_service.py:
marker-based tool-call extraction, marker stripping, history trimming,
prompt compilation, request classification and response assembly.

Modelling conventions:
- Python strings are modelled as List Char.
- Python integers are modelled as Int (token counts) or Nat (lengths).
- JSON values produced by json.loads and consumed by json.dumps are
  modelled by the mutual inductive type Json / JArr / JObj below; JSON
  numbers are modelled as integers (floating point literals are outside
  the scope of the shallow embedding and are rejected by the model parser).
- Fallible Python code (exceptions, IndexError) is modelled with Option.
- Freshly generated identifiers (uuid4) and wall-clock timestamps are
  external nondeterminism; they enter the model as explicit parameters.
-/

namespace Canctool

/-- Whitespace predicate used both for the regex class \s and for
str.strip in prompt_engineering.py. The model covers the ASCII fragment
of the Python (unicode) whitespace set; the claims only exercise ASCII. -/
def isWS (c : Char) : Bool :=
  c = ' ' || c = '\t' || c = '\n' || c = '\r' || c = '\x0b' || c = '\x0c'

/-- JSON inter-token whitespace accepted by json.loads. -/
def isJsonWS (c : Char) : Bool :=
  c = ' ' || c = '\t' || c = '\n' || c = '\r'

mutual

/-- JSON values as produced by json.loads / consumed by json.dumps.
Numbers are modelled as integers (see file header). -/
inductive Json where
  | null : Json
  | jb (b : Bool) : Json
  | jn (n : Int) : Json
  | js (s : List Char) : Json
  | ja (xs : JArr) : Json
  | jo (kvs : JObj) : Json
deriving DecidableEq

/-- Ordered JSON array contents. -/
inductive JArr where
  | anil : JArr
  | acons (hd : Json) (tl : JArr) : JArr
deriving DecidableEq

/-- Ordered JSON object contents, as a key-value association list.
Python dicts cannot hold duplicate keys; objects decoded from JSON
texts without duplicate keys are represented faithfully. -/
inductive JObj where
  | onil : JObj
  | ocons (k : List Char) (v : Json) (tl : JObj) : JObj
deriving DecidableEq

end

/-- Lowercase hexadecimal digit character for a value below 16. -/
def hexDigit (n : Nat) : Char :=
  if n < 10 then Char.ofNat (48 + n) else Char.ofNat (87 + n)

/-- Escape of one character inside a JSON string literal, following
json.dumps with ensure_ascii=False: quote, backslash and the short
control escapes, then \u00XX for the remaining control characters,
and every other character verbatim. -/
def escChar (c : Char) : List Char :=
  if c = '"' then ['\\', '"']
  else if c = '\\' then ['\\', '\\']
  else if c = '\n' then ['\\', 'n']
  else if c = '\t' then ['\\', 't']
  else if c = '\r' then ['\\', 'r']
  else if c = '\x08' then ['\\', 'b']
  else if c = '\x0c' then ['\\', 'f']
  else if c.toNat < 32 then
    ['\\', 'u', '0', '0', hexDigit (c.toNat / 16), hexDigit (c.toNat % 16)]
  else [c]

/-- Body of a dumped JSON string: escaped characters followed by the
closing quote. -/
def dumpStrBody : List Char → List Char
  | [] => ['"']
  | c :: cs => escChar c ++ dumpStrBody cs

/-- Dumped JSON string literal, opening quote included. -/
def dumpStr (s : List Char) : List Char :=
  '"' :: dumpStrBody s

/-- Decimal digit character. -/
def digitChar (n : Nat) : Char := Char.ofNat (48 + n)

/-- Decimal representation of a natural number, accumulator form. -/
def natToCharsAux : Nat → List Char → List Char
  | n, acc =>
    if h : n < 10 then digitChar n :: acc
    else natToCharsAux (n / 10) (digitChar (n % 10) :: acc)
decreasing_by exact Nat.div_lt_self (by omega) (by omega)

/-- Decimal representation of a natural number. -/
def natToChars (n : Nat) : List Char := natToCharsAux n []

/-- Decimal representation of an integer, as printed by json.dumps. -/
def intToChars (n : Int) : List Char :=
  if n < 0 then '-' :: natToChars n.natAbs else natToChars n.toNat

mutual

/-- Rendering of a JSON value by json.dumps with ensure_ascii=False and
the default separators (comma-space and colon-space). -/
def dumpJson : Json → List Char
  | Json.null => ['n', 'u', 'l', 'l']
  | Json.jb true => ['t', 'r', 'u', 'e']
  | Json.jb false => ['f', 'a', 'l', 's', 'e']
  | Json.jn n => intToChars n
  | Json.js s => dumpStr s
  | Json.ja xs => '[' :: dumpArrFirst xs
  | Json.jo kvs => '\x7b' :: dumpObjFirst kvs

/-- Array items after the opening bracket. -/
def dumpArrFirst : JArr → List Char
  | JArr.anil => [']']
  | JArr.acons hd tl => dumpJson hd ++ dumpArrSep tl

/-- Array items after the first one, each preceded by comma-space. -/
def dumpArrSep : JArr → List Char
  | JArr.anil => [']']
  | JArr.acons hd tl => ',' :: ' ' :: (dumpJson hd ++ dumpArrSep tl)

/-- Object items after the opening brace. -/
def dumpObjFirst : JObj → List Char
  | JObj.onil => ['\x7d']
  | JObj.ocons k v tl => dumpStr k ++ ':' :: ' ' :: (dumpJson v ++ dumpObjSep tl)

/-- Object items after the first one, each preceded by comma-space. -/
def dumpObjSep : JObj → List Char
  | JObj.onil => ['\x7d']
  | JObj.ocons k v tl =>
      ',' :: ' ' :: (dumpStr k ++ ':' :: ' ' :: (dumpJson v ++ dumpObjSep tl))

end

/-- Value of a hexadecimal digit character, as accepted by the \uXXXX
escape of json.loads. -/
def hexVal (c : Char) : Option Nat :=
  if '0' ≤ c && c ≤ '9' then some (c.toNat - 48)
  else if 'a' ≤ c && c ≤ 'f' then some (c.toNat - 87)
  else if 'A' ≤ c && c ≤ 'F' then some (c.toNat - 55)
  else none

/-- Consume an expected literal character sequence. -/
def stripLit : List Char → List Char → Option (List Char)
  | [], s => some s
  | p :: ps, c :: cs => if c = p then stripLit ps cs else none
  | _ :: _, [] => none

/-- Body of a JSON string literal as decoded by json.loads, after the
opening quote: returns the decoded characters and the remaining input.
Raw control characters are rejected (strict mode); lone surrogate
escapes are rejected (Lean characters are unicode scalar values). -/
def parseStrBody : List Char → Option (List Char × List Char)
  | [] => none
  | '"' :: cs => some ([], cs)
  | '\\' :: '"' :: cs => (parseStrBody cs).map (fun p => ('"' :: p.1, p.2))
  | '\\' :: '\\' :: cs => (parseStrBody cs).map (fun p => ('\\' :: p.1, p.2))
  | '\\' :: '/' :: cs => (parseStrBody cs).map (fun p => ('/' :: p.1, p.2))
  | '\\' :: 'n' :: cs => (parseStrBody cs).map (fun p => ('\n' :: p.1, p.2))
  | '\\' :: 't' :: cs => (parseStrBody cs).map (fun p => ('\t' :: p.1, p.2))
  | '\\' :: 'r' :: cs => (parseStrBody cs).map (fun p => ('\r' :: p.1, p.2))
  | '\\' :: 'b' :: cs => (parseStrBody cs).map (fun p => ('\x08' :: p.1, p.2))
  | '\\' :: 'f' :: cs => (parseStrBody cs).map (fun p => ('\x0c' :: p.1, p.2))
  | '\\' :: 'u' :: h1 :: h2 :: h3 :: h4 :: r =>
    (match hexVal h1, hexVal h2, hexVal h3, hexVal h4 with
     | some a, some b, some c, some d =>
       let code := 4096 * a + 256 * b + 16 * c + d
       if Nat.isValidChar code then
         (parseStrBody r).map (fun p => (Char.ofNat code :: p.1, p.2))
       else none
     | _, _, _, _ => none)
  | '\\' :: _ => none
  | c :: cs =>
    if c.toNat < 32 then none
    else (parseStrBody cs).map (fun p => (c :: p.1, p.2))

/-- Decimal digit predicate (JSON number grammar). -/
def isDigitCh (c : Char) : Bool := '0' ≤ c && c ≤ '9'

/-- Numeric value of a list of decimal digit characters, most
significant first, on top of an accumulator. -/
def digitsVal (acc : Nat) : List Char → Nat
  | [] => acc
  | c :: cs => digitsVal (10 * acc + (c.toNat - 48)) cs

/-- Unsigned integer token of the JSON number grammar: a nonempty run
of digits without a superfluous leading zero. -/
def parseNatTok (s : List Char) : Option (Nat × List Char) :=
  match s.takeWhile isDigitCh with
  | [] => none
  | d :: ds =>
    if d = '0' && !ds.isEmpty then none
    else some (digitsVal 0 (d :: ds), s.dropWhile isDigitCh)

/-- True when the input cannot continue a number token: json.loads
would extend the token with a digit, a fraction or an exponent, and
floating point literals are outside this model (they make the model
parser fail rather than produce a value). -/
def numStop : List Char → Bool
  | [] => true
  | c :: _ => !(isDigitCh c || c = '.' || c = 'e' || c = 'E')

/-- Integer token of the JSON number grammar, with sign. Inputs that
continue into a float literal are rejected by the model (see header). -/
def parseIntTok : List Char → Option (Int × List Char) := fun s =>
  match s with
  | '-' :: r =>
    match parseNatTok r with
    | some (n, rest) => if numStop rest then some (-(n : Int), rest) else none
    | none => none
  | r =>
    match parseNatTok r with
    | some (n, rest) => if numStop rest then some ((n : Int), rest) else none
    | none => none

mutual

/-- JSON value parser modelling json.loads, fuel-indexed. The fuel is
an artifact of the embedding: every recursion level consumes at least
one character, so the fuel passed by jsonLoads never runs out. -/
def parseVal : Nat → List Char → Option (Json × List Char)
  | 0, _ => none
  | Nat.succ f, s =>
    match s.dropWhile isJsonWS with
    | [] => none
    | c :: r =>
      if c = 'n' then (stripLit ['u', 'l', 'l'] r).map (fun r2 => (Json.null, r2))
      else if c = 't' then (stripLit ['r', 'u', 'e'] r).map (fun r2 => (Json.jb true, r2))
      else if c = 'f' then (stripLit ['a', 'l', 's', 'e'] r).map (fun r2 => (Json.jb false, r2))
      else if c = '"' then (parseStrBody r).map (fun p => (Json.js p.1, p.2))
      else if c = '\x7b' then (parseObjFirst f r).map (fun p => (Json.jo p.1, p.2))
      else if c = '[' then (parseArrFirst f r).map (fun p => (Json.ja p.1, p.2))
      else (parseIntTok (c :: r)).map (fun p => (Json.jn p.1, p.2))

/-- Array items directly after the opening bracket. -/
def parseArrFirst : Nat → List Char → Option (JArr × List Char)
  | 0, _ => none
  | Nat.succ f, s =>
    match s.dropWhile isJsonWS with
    | ']' :: r => some (JArr.anil, r)
    | r =>
      match parseVal f r with
      | some (v, r2) => (parseArrSep f r2).map (fun p => (JArr.acons v p.1, p.2))
      | none => none

/-- Array continuation: a comma and a further item, or the closing
bracket. -/
def parseArrSep : Nat → List Char → Option (JArr × List Char)
  | 0, _ => none
  | Nat.succ f, s =>
    match s.dropWhile isJsonWS with
    | ']' :: r => some (JArr.anil, r)
    | ',' :: r =>
      match parseVal f r with
      | some (v, r2) => (parseArrSep f r2).map (fun p => (JArr.acons v p.1, p.2))
      | none => none
    | _ => none

/-- Object items directly after the opening brace. -/
def parseObjFirst : Nat → List Char → Option (JObj × List Char)
  | 0, _ => none
  | Nat.succ f, s =>
    match s.dropWhile isJsonWS with
    | '\x7d' :: r => some (JObj.onil, r)
    | '"' :: r => parseObjPair f r
    | _ => none

/-- One key-value pair whose key-opening quote was just consumed, plus
the object continuation. -/
def parseObjPair : Nat → List Char → Option (JObj × List Char)
  | 0, _ => none
  | Nat.succ f, s =>
    match parseStrBody s with
    | some (k, r) =>
      match r.dropWhile isJsonWS with
      | ':' :: r2 =>
        match parseVal f r2 with
        | some (v, r3) => (parseObjSepP f r3).map (fun p => (JObj.ocons k v p.1, p.2))
        | none => none
      | _ => none
    | none => none

/-- Object continuation: a comma and a further pair, or the closing
brace. -/
def parseObjSepP : Nat → List Char → Option (JObj × List Char)
  | 0, _ => none
  | Nat.succ f, s =>
    match s.dropWhile isJsonWS with
    | '\x7d' :: r => some (JObj.onil, r)
    | ',' :: r =>
      match r.dropWhile isJsonWS with
      | '"' :: r2 => parseObjPair f r2
      | _ => none
    | _ => none

end

/-- Model of json.loads: parse one value, then require that only
whitespace remains (strict full consumption). -/
def jsonLoads (s : List Char) : Option Json :=
  match parseVal (s.length + 1) s with
  | some (v, rest) => if (rest.dropWhile isJsonWS).isEmpty then some v else none
  | none => none

/-! Round-trip lemmas: the model parser recovers what the model printer
emitted. These back the C4 round-trip claim. -/

mutual

/-- Fuel needed by parseVal on the dump of a value; an accounting
device for the fuel-indexed parser, not part of the embedded program. -/
def fuelJ : Json → Nat
  | Json.null => 1
  | Json.jb _ => 1
  | Json.jn _ => 1
  | Json.js _ => 1
  | Json.ja xs => 1 + fuelA xs
  | Json.jo kvs => 1 + fuelO kvs

/-- Fuel needed by parseArrFirst / parseArrSep on dumped array items. -/
def fuelA : JArr → Nat
  | JArr.anil => 1
  | JArr.acons hd tl => 1 + max (fuelJ hd) (fuelA tl)

/-- Fuel needed by parseObjFirst / parseObjSepP on dumped object items. -/
def fuelO : JObj → Nat
  | JObj.onil => 1
  | JObj.ocons _ v tl => 2 + max (fuelJ v) (fuelO tl)

end

/-! Marker scanning. parse_tool_call and extract_clean_response in
prompt_engineering.py use the regular expressions
TOOL_CALL:\s*(\x7b.*\x7d) and TOOL_CALL:\s*\x7b.*\x7d with re.DOTALL.
A match starts at an occurrence of the literal marker, skips the
maximal whitespace run, requires an opening brace, and the greedy .*
extends the match to the last closing brace of the remaining input. -/

/-- The literal marker TOOL_CALL: of the tool-call grammar. -/
def markerChars : List Char :=
  ['T', 'O', 'O', 'L', '_', 'C', 'A', 'L', 'L', ':']

/-- Index of the last closing brace of a string, if any. -/
def lastBrace : List Char → Option Nat
  | [] => none
  | c :: cs =>
    match lastBrace cs with
    | some i => some (i + 1)
    | none => if c = '\x7d' then some 0 else none

/-- Match of the marker regex anchored at the start of the input:
returns the total matched length and the captured brace group. -/
def matchTC (s : List Char) : Option (Nat × List Char) :=
  if markerChars.isPrefixOf s then
    let r := s.drop 10
    let w := (r.takeWhile isWS).length
    match r.drop w with
    | '\x7b' :: r3 =>
      (match lastBrace r3 with
       | some k => some (10 + w + 1 + (k + 1), '\x7b' :: r3.take (k + 1))
       | none => none)
    | _ => none
  else none

/-- Leftmost match semantics of re.search: the captured group of the
first position where the marker regex matches. -/
def findTC : List Char → Option (List Char)
  | [] => none
  | c :: cs =>
    match matchTC (c :: cs) with
    | some (_, g) => some g
    | none => findTC cs

/-- Fuel-indexed worker for the re.sub model; the fuel only serves
structural termination and is always at least the input length. -/
def subFuel : Nat → List Char → List Char
  | _, [] => []
  | 0, s => s
  | Nat.succ f, c :: cs =>
    match matchTC (c :: cs) with
    | some (n, _) => subFuel f ((c :: cs).drop n)
    | none => c :: subFuel f cs

/-- Model of re.sub with empty replacement for the marker pattern: scan
left to right, remove every non-overlapping match, copy everything
else. -/
def subF (s : List Char) : List Char := subFuel s.length s

/-- Python str.strip: remove whitespace from both ends. -/
def pyStrip (s : List Char) : List Char :=
  ((s.dropWhile isWS).reverse.dropWhile isWS).reverse

/-- Decoded structured call as returned by parse_tool_call: the
dictionary with keys tool_name and arguments. Python None and JSON
null are the same object, so an absent tool_name key is Json.null. -/
structure ParsedToolCall where
  tool_name : Json
  arguments : Json
deriving DecidableEq

/-- Python dict.get with default None on a decoded JSON object. -/
def jGet : JObj → List Char → Json
  | JObj.onil, _ => Json.null
  | JObj.ocons k v tl, key => if k = key then v else jGet tl key

/-- Python dict.get with an explicit default on a decoded JSON object. -/
def jGetD : JObj → List Char → Json → Json
  | JObj.onil, _, d => d
  | JObj.ocons k v tl, key, d => if k = key then v else jGetD tl key d

/-- PromptEngineeringService.parse_tool_call: search for the marker
pattern, json-decode the captured group, build the result dictionary;
a decode failure is swallowed and yields None. -/
def parse_tool_call (llm_response : List Char) : Option ParsedToolCall :=
  match findTC llm_response with
  | some g =>
    (match jsonLoads g with
     | some (Json.jo kvs) =>
       some ⟨jGet kvs ("tool_name".data), jGetD kvs ("arguments".data) (Json.jo JObj.onil)⟩
     | _ => none)
  | none => none

/-- PromptEngineeringService.extract_clean_response: remove the marker
pattern matches by re.sub, then strip surrounding whitespace. -/
def extract_clean_response (llm_response : List Char) : List Char :=
  pyStrip (subF llm_response)

/-- Whether the marker pattern matches anywhere in the input. -/
def hasM : List Char → Bool
  | [] => false
  | c :: cs => (matchTC (c :: cs)).isSome || hasM cs

/-! Data model. The canctool package imports its data classes from
canctool.models, which is not present under src (only the flat-layout
revision src/models.py is). The records below are therefore modelled
from the spec data model (section 3) and the sibling src/models.py:
plain data holders without runtime validation. -/

/-- One element of a list-shaped message content. -/
inductive PartItem where
  | textDict (t : List Char)
  | strItem (s : List Char)
  | otherItem (pyRepr : List Char)
deriving DecidableEq

/-- Modelled from the spec: ContentValue is the tagged union of the
content shapes handled by _ensure_string_content. The pyRepr fields
carry the Python str() rendering of shapes the code stringifies; the
truthy fields carry the Python truthiness of shapes the code tests. -/
inductive ContentValue where
  | pyNone
  | text (s : List Char)
  | parts (items : List PartItem)
  | dictWithText (t : List Char)
  | dictOther (pyRepr : List Char) (nonEmpty : Bool)
  | other (pyRepr : List Char) (truthy : Bool)
deriving DecidableEq

/-- PromptEngineeringService._ensure_string_content. -/
def ensure_string_content : ContentValue → List Char
  | ContentValue.pyNone => []
  | ContentValue.text s => s
  | ContentValue.parts items =>
    List.intercalate ("\n".data) (items.map fun
      | PartItem.textDict t => t
      | PartItem.strItem s => s
      | PartItem.otherItem r => r)
  | ContentValue.dictWithText t => t
  | ContentValue.dictOther r _ => r
  | ContentValue.other r _ => r

/-- Python truthiness of a content value, as used by the if checks of
_format_conversation_history. -/
def contentTruthy : ContentValue → Bool
  | ContentValue.pyNone => false
  | ContentValue.text s => !s.isEmpty
  | ContentValue.parts items => !items.isEmpty
  | ContentValue.dictWithText _ => true
  | ContentValue.dictOther _ ne => ne
  | ContentValue.other _ t => t

/-- Structured call attached to an inbound message, in the wire shape
accessed by the code: tool_call["id"], ["function"]["name"] and
["function"]["arguments"]. -/
structure MsgToolCall where
  id : List Char
  function_name : List Char
  function_arguments : List Char
deriving DecidableEq

/-- Modelled from the spec: Message record (spec section 3). -/
structure ChatMessage where
  role : List Char
  content : ContentValue
  tool_calls : Option (List MsgToolCall) := none
  tool_call_id : Option (List Char) := none
deriving DecidableEq

/-- Python truthiness of an optional list field. -/
def optListTruthy {α : Type} : Option (List α) → Bool
  | none => false
  | some l => !l.isEmpty

/-- Python truthiness of an optional string. -/
def optStrTruthy : Option (List Char) → Bool
  | none => false
  | some s => !s.isEmpty

/-- Modelled from the spec: ParameterSpec (spec section 3 and the
sibling src/models.py FunctionParameter). The defaultRepr field holds
the Python str() of the default value, which is what the f-string in
_tools_to_string renders. -/
structure FunctionParameter where
  description : Option (List Char) := none
  type : List Char := "string".data
  enum : Option (List (List Char)) := none
  defaultRepr : List Char := "None".data
deriving DecidableEq

/-- Modelled from the spec: parameter block of a tool schema. The
properties mapping keeps dict insertion order as an association list. -/
structure FunctionParametersT where
  type : List Char := "object".data
  properties : List (List Char × FunctionParameter) := []
  required : List (List Char) := []
deriving DecidableEq

/-- Modelled from the spec: function part of a tool schema. -/
structure FunctionDefinition where
  name : List Char
  description : List Char
  parameters : FunctionParametersT
deriving DecidableEq

/-- Modelled from the spec: ToolSchema. -/
structure Tool where
  type : List Char := "function".data
  function : FunctionDefinition
deriving DecidableEq

/-- Rendering of an Optional[str] inside an f-string: None prints as
the four letters None. -/
def optStr : Option (List Char) → List Char
  | none => "None".data
  | some s => s

/-- Python repr of a list of strings, as rendered for the enum field.
The adaptive quoting repr applies to strings containing quote
characters is not modelled; enum values in the claims contain none. -/
def pyReprStrList (xs : List (List Char)) : List Char :=
  '[' :: (List.intercalate (", ".data) (xs.map fun s => '\x27' :: (s ++ ['\x27']))) ++ "]".data

/-- One parameter line of _tools_to_string. -/
def render_param (required_list : List (List Char)) (p : List Char × FunctionParameter) :
    List Char :=
  "  - ".data ++ p.1 ++ " (".data ++ p.2.type ++ ")".data ++
  (if required_list.contains p.1 then " (必需)".data
   else " (可选, 默认值: ".data ++ p.2.defaultRepr ++ ")".data) ++
  (match p.2.enum with
   | some es => if es.isEmpty then [] else ", 允许的值: ".data ++ pyReprStrList es
   | none => []) ++
  "\n    描述: ".data ++ optStr p.2.description ++ "\n".data

/-- One tool block of _tools_to_string. -/
def render_tool (t : Tool) : List Char :=
  "\n工具名称: ".data ++ t.function.name ++
  "\n描述: ".data ++ t.function.description ++
  "\n参数:\n".data ++
  (if t.function.parameters.properties.isEmpty then "  无参数\n".data
   else (t.function.parameters.properties.map (render_param t.function.parameters.required)).join) ++
  "\n".data

/-- PromptEngineeringService._tools_to_string. -/
def tools_to_string (tools : List Tool) : List Char :=
  (tools.map render_tool).join

/-- One line of the conversation history rendering, or none when the
loop continues without appending (empty assistant message, or a role
other than user, assistant and tool). -/
def render_history_line (msg : ChatMessage) : Option (List Char) :=
  let content := ensure_string_content msg.content
  if msg.role = "user".data then some ("用户: ".data ++ content)
  else if msg.role = "assistant".data then
    (if optListTruthy msg.tool_calls then
      some ("助手: ".data ++ List.intercalate ("; ".data)
        ((msg.tool_calls.getD []).map fun tc => "调用工具 ".data ++ tc.function_name))
    else if contentTruthy msg.content then some ("助手: ".data ++ content)
    else none)
  else if msg.role = "tool".data then some ("工具结果: ".data ++ content)
  else none

/-- PromptEngineeringService._format_conversation_history: the loop
appends one line per message or skips it, then joins with newlines. -/
def format_conversation_history (messages : List ChatMessage) : List Char :=
  List.intercalate ("\n".data) (messages.filterMap render_history_line)

/-- PromptEngineeringService._calculate_prompt_length: additive length
estimate of the compiled prompt. -/
def calculate_prompt_length (messages : List ChatMessage) (tools : Option (List Tool))
    (tool_result : Option (List Char)) : Nat :=
  let base_template_length := 500
  let tools_length := if optListTruthy tools then (tools_to_string (tools.getD [])).length else 0
  let tool_result_length :=
    if optStrTruthy tool_result then (tool_result.getD []).length + 100 else 0
  let messages_length :=
    (messages.map fun m => (ensure_string_content m.content).length + 50).sum
  base_template_length + tools_length + tool_result_length + messages_length

/-- Eviction loop of _trim_messages_to_fit: drop the oldest message,
stop as soon as the estimate fits or a single message remains. -/
def trim_loop (maxLen : Nat) (tools : Option (List Tool)) (tool_result : Option (List Char)) :
    List ChatMessage → List ChatMessage
  | [] => []
  | [m] => [m]
  | _ :: m2 :: rest =>
    if calculate_prompt_length (m2 :: rest) tools tool_result ≤ maxLen then m2 :: rest
    else trim_loop maxLen tools tool_result (m2 :: rest)

/-- PromptEngineeringService._trim_messages_to_fit. -/
def trim_messages_to_fit (maxLen : Nat) (messages : List ChatMessage)
    (tools : Option (List Tool)) (tool_result : Option (List Char)) : List ChatMessage :=
  if messages.isEmpty then messages
  else if calculate_prompt_length messages tools tool_result ≤ maxLen then messages
  else trim_loop maxLen tools tool_result messages

/-- Tool block of build_unified_tool_prompt (the tools_info f-string),
empty when the tools argument is falsy. -/
def tools_info_str (tools : Option (List Tool)) : List Char :=
  if optListTruthy tools then
    "\n可用工具：\n".data ++ tools_to_string (tools.getD []) ++
    "\n\n工具调用格式：\n当你需要调用工具时，必须在回复中包含以下格式：\n```\nTOOL_CALL: \x7b\"tool_name\": \"工具名称\", \"arguments\": \x7b\"参数名\": \"参数值\"\x7d\x7d\n```\n\n参数要求：\n- tool_name: 必须是上述可用工具列表中的一个\n- arguments: 必须是符合工具定义的JSON对象，包含所有必需参数\n".data
  else []

/-- Tool result block of build_unified_tool_prompt (the
tool_result_info f-string), empty when the tool result is falsy. -/
def tool_result_info_str (tool_result : Option (List Char)) : List Char :=
  if optStrTruthy tool_result then
    "\n上次工具调用结果：\n".data ++ tool_result.getD [] ++
    "\n\n基于上述结果，请决定是否需要调用更多工具或直接回答用户问题。\n".data
  else []

/-- PromptEngineeringService.build_unified_tool_prompt. The access
trimmed_messages[-1] raises IndexError on an empty list; the model
returns none in that case and some prompt otherwise. -/
def build_unified_tool_prompt (maxLen : Nat) (messages : List ChatMessage)
    (tools : Option (List Tool)) (tool_result : Option (List Char)) : Option (List Char) :=
  let trimmed_messages := trim_messages_to_fit maxLen messages tools tool_result
  match trimmed_messages.getLast? with
  | none => none
  | some last =>
    let user_message := ensure_string_content last.content
    let conversation_history := format_conversation_history trimmed_messages.dropLast
    let tools_info := tools_info_str tools
    let tool_result_info := tool_result_info_str tool_result
    if !conversation_history.isEmpty then
      some ("你是一个智能助手，必须优先使用工具来回答用户问题。只有在工具调用无法满足用户需求时，才提供直接答案。\n\n".data ++
        tools_info ++ "\n".data ++ tool_result_info ++
        "\n当前对话：\n".data ++ conversation_history ++
        "\n\n用户最新消息：\n".data ++ user_message ++
        "\n\n请分析用户需求。如果需要调用工具，请按上述格式返回工具调用信息。如果不需要工具，请直接回答。".data)
    else
      some ("你是一个智能助手，必须优先使用工具来回答用户问题。只有在工具调用无法满足用户需求时，才提供直接答案。\n\n".data ++
        tools_info ++ "\n".data ++ tool_result_info ++
        "\n用户消息：\n".data ++ user_message ++
        "\n\n请分析用户需求。如果需要调用工具，请按上述格式返回工具调用信息。如果不需要工具，请直接回答。".data)

/-- Modelled from the spec: inbound request record (spec section 6);
only the fields the embedded core reads. -/
structure ChatCompletionRequest where
  model : List Char
  messages : List ChatMessage
  tools : Option (List Tool) := none
deriving DecidableEq

/-- LLMService.should_use_tools: bool(request.tools and len > 0). -/
def should_use_tools (request : ChatCompletionRequest) : Bool :=
  optListTruthy request.tools

/-- Backward scan of LLMService.is_tool_result_request over the
reversed message list. -/
def scanToolResult : List ChatMessage → Bool
  | [] => false
  | m :: rest =>
    if m.role = "tool".data then true
    else if m.role = "assistant".data && optListTruthy m.tool_calls then false
    else scanToolResult rest

/-- LLMService.is_tool_result_request. -/
def is_tool_result_request (request : ChatCompletionRequest) : Bool :=
  scanToolResult request.messages.reverse

/-- ConversationState (spec section 3): derived turn state. -/
inductive ConversationState where
  | toolResultPending
  | toolInvocationEligible
  | plain
deriving DecidableEq

/-- Turn classification as dispatched by handle_unified_request: the
tool-result check first, then the tools flag, else a plain turn. -/
def classify_conversation (request : ChatCompletionRequest) : ConversationState :=
  if is_tool_result_request request then ConversationState.toolResultPending
  else if should_use_tools request then ConversationState.toolInvocationEligible
  else ConversationState.plain

/-! Response assembly (ResponseFormatter.format_unified_response).
The canctool.models response classes are modelled from the spec
(CompletionResponse, spec section 3). Fresh uuid identifiers and the
creation timestamp are external nondeterminism, passed as the
freshCallId, freshRespId and now parameters. -/

/-- Outbound tool call of the assembled response: the dict form of the
ToolCall object (id, type, function name and json.dumps arguments). -/
structure RespToolCall where
  id : List Char
  type : List Char
  function_name : Json
  function_arguments : List Char
deriving DecidableEq

/-- Assembled response message. -/
structure RespMessage where
  role : List Char
  content : List Char
  tool_calls : Option (List RespToolCall) := none
deriving DecidableEq

/-- Modelled from the spec: one choice of the response. -/
structure Choice where
  index : Nat
  message : RespMessage
  finish_reason : List Char
deriving DecidableEq

/-- Modelled from the spec: usage accounting record. -/
structure Usage where
  prompt_tokens : Int
  completion_tokens : Int
  total_tokens : Int
deriving DecidableEq

/-- Modelled from the spec: the protocol-compliant completion
response. -/
structure ChatCompletionResponse where
  id : List Char
  object : List Char
  created : Int
  model : List Char
  choices : List Choice
  usage : Usage
deriving DecidableEq

/-- ResponseFormatter.format_unified_response. The Python truthiness
test if tool_call_data is equivalent to the parse result being present,
because the returned dictionary always has two keys. -/
def format_unified_response (request : ChatCompletionRequest) (llm_response : List Char)
    (prompt_tokens completion_tokens : Int) (check_tool_calls : Bool)
    (freshCallId freshRespId : List Char) (now : Int) : ChatCompletionResponse :=
  let tool_call_data := if check_tool_calls then parse_tool_call llm_response else none
  let clean_content := if check_tool_calls then extract_clean_response llm_response
    else llm_response
  let usage : Usage :=
    { prompt_tokens := prompt_tokens, completion_tokens := completion_tokens,
      total_tokens := prompt_tokens + completion_tokens }
  match tool_call_data with
  | some tc =>
    let tool_call : RespToolCall :=
      { id := freshCallId, type := "function".data,
        function_name := tc.tool_name,
        function_arguments := dumpJson tc.arguments }
    let message : RespMessage :=
      { role := "assistant".data, content := [], tool_calls := some [tool_call] }
    let choice : Choice :=
      { index := 0, message := message, finish_reason := "tool_calls".data }
    { id := freshRespId, object := "chat.completion".data, created := now,
      model := request.model, choices := [choice], usage := usage }
  | none =>
    let message : RespMessage :=
      { role := "assistant".data, content := clean_content, tool_calls := none }
    let choice : Choice :=
      { index := 0, message := message, finish_reason := "stop".data }
    { id := freshRespId, object := "chat.completion".data, created := now,
      model := request.model, choices := [choice], usage := usage }

/-- Membership of a key in a decoded JSON object. -/
def jHasKey : JObj → List Char → Bool
  | JObj.onil, _ => false
  | JObj.ocons k _ tl, key => k = key || jHasKey tl key

/-- Specification-side predicate (spec section 4.2, written from the
spec wording): a message is tool-relevant when its role is tool, or
its role is assistant and it carries a non-empty tool_calls field. -/
def isToolRelevant (m : ChatMessage) : Bool :=
  m.role = "tool".data || (m.role = "assistant".data && optListTruthy m.tool_calls)

theorem natToCharsAux_small (n : Nat) (h : n < 10) (acc : List Char) :
    natToCharsAux n acc = digitChar n :: acc := by
  rw [natToCharsAux]
  simp [h]

theorem natToCharsAux_big (n : Nat) (h : ¬ n < 10) (acc : List Char) :
    natToCharsAux n acc = natToCharsAux (n / 10) (digitChar (n % 10) :: acc) := by
  conv_lhs => rw [natToCharsAux]
  simp [h]

theorem natToCharsAux_append (n : Nat) : ∀ acc, natToCharsAux n acc = natToChars n ++ acc := by
  induction n using Nat.strong_induction_on with
  | _ n ih =>
    intro acc
    by_cases h : n < 10
    · rw [natToCharsAux_small n h, natToChars, natToCharsAux_small n h]
      simp
    · have hlt : n / 10 < n := Nat.div_lt_self (by omega) (by omega)
      rw [natToCharsAux_big n h, natToChars, natToCharsAux_big n h,
          ih (n / 10) hlt, ih (n / 10) hlt]
      simp

theorem natToChars_small (n : Nat) (h : n < 10) : natToChars n = [digitChar n] := by
  rw [natToChars, natToCharsAux_small n h]

theorem natToChars_big (n : Nat) (h : ¬ n < 10) :
    natToChars n = natToChars (n / 10) ++ [digitChar (n % 10)] := by
  rw [natToChars, natToCharsAux_big n h, natToCharsAux_append]

theorem digitChar_isDigit : ∀ d, d < 10 → isDigitCh (digitChar d) = true := by decide

theorem digitChar_val : ∀ d, d < 10 → (digitChar d).toNat - 48 = d := by decide

theorem natToChars_ne_nil (n : Nat) : natToChars n ≠ [] := by
  by_cases h : n < 10
  · rw [natToChars_small n h]; simp
  · rw [natToChars_big n h]; simp

theorem natToChars_digits (n : Nat) : ∀ c ∈ natToChars n, isDigitCh c = true := by
  induction n using Nat.strong_induction_on with
  | _ n ih =>
    by_cases h : n < 10
    · rw [natToChars_small n h]
      intro c hc
      simp at hc
      subst hc
      exact digitChar_isDigit n h
    · rw [natToChars_big n h]
      intro c hc
      rw [List.mem_append] at hc
      rcases hc with hc | hc
      · exact ih (n / 10) (Nat.div_lt_self (by omega) (by omega)) c hc
      · simp at hc
        subst hc
        exact digitChar_isDigit (n % 10) (Nat.mod_lt n (by omega))

theorem natToChars_no_leading_zero (n : Nat) :
    ∀ ds, natToChars n = '0' :: ds → n = 0 ∧ ds = [] := by
  induction n using Nat.strong_induction_on with
  | _ n ih =>
    intro ds h
    by_cases hn : n < 10
    · rw [natToChars_small n hn] at h
      have hdig : digitChar n = '0' ∧ ds = [] := by
        constructor
        · injection h
        · injection h with h1 h2
          exact h2.symm
      have hzero : ∀ d, d < 10 → digitChar d = '0' → d = 0 := by decide
      exact ⟨hzero n hn hdig.1, hdig.2⟩
    · rw [natToChars_big n hn] at h
      rcases hq : natToChars (n / 10) with _ | ⟨d, rest⟩
      · exact absurd hq (natToChars_ne_nil _)
      · rw [hq] at h
        rw [List.cons_append, List.cons_eq_cons] at h
        obtain ⟨hd, -⟩ := h
        subst hd
        have := (ih (n / 10) (Nat.div_lt_self (by omega) (by omega)) rest hq).1
        omega

@[simp] theorem digitsVal_nil (a : Nat) : digitsVal a [] = a := rfl

@[simp] theorem digitsVal_cons (a : Nat) (c : Char) (cs : List Char) :
    digitsVal a (c :: cs) = digitsVal (10 * a + (c.toNat - 48)) cs := rfl

theorem digitsVal_appendL (xs : List Char) :
    ∀ a ys, digitsVal a (xs ++ ys) = digitsVal (digitsVal a xs) ys := by
  induction xs with
  | nil => intro a ys; simp
  | cons c cs ih => intro a ys; simp [ih]

theorem digitsVal_natToChars (n : Nat) :
    ∀ a, digitsVal a (natToChars n) = a * 10 ^ (natToChars n).length + n := by
  induction n using Nat.strong_induction_on with
  | _ n ih =>
    intro a
    by_cases h : n < 10
    · rw [natToChars_small n h]
      simp [digitChar_val n h]
      ring
    · have hlt : n / 10 < n := Nat.div_lt_self (by omega) (by omega)
      rw [natToChars_big n h, digitsVal_appendL, ih (n / 10) hlt]
      simp [digitChar_val (n % 10) (Nat.mod_lt n (by omega))]
      rw [Nat.pow_succ]
      have hdm : 10 * (n / 10) + n % 10 = n := Nat.div_add_mod n 10
      ring_nf
      omega

theorem digitsVal_natToChars_zero (n : Nat) : digitsVal 0 (natToChars n) = n := by
  rw [digitsVal_natToChars]
  simp

theorem takeWhile_append_all (p : Char → Bool) (xs ys : List Char)
    (hxs : ∀ c ∈ xs, p c = true)
    (hys : ∀ y t, ys = y :: t → p y = false) :
    (xs ++ ys).takeWhile p = xs ∧ (xs ++ ys).dropWhile p = ys := by
  induction xs with
  | nil =>
    rcases hsplit : ys with _ | ⟨y, t⟩
    · simp
    · simp [List.takeWhile, List.dropWhile, hys y t hsplit]
  | cons c cs ih =>
    have hc : p c = true := hxs c (by simp)
    have hrest := ih (fun d hd => hxs d (by simp [hd]))
    simp [List.takeWhile, List.dropWhile, hc, hrest.1, hrest.2]

theorem numStop_head_not_digit (ys : List Char) (h : numStop ys = true) :
    ∀ y t, ys = y :: t → isDigitCh y = false := by
  intro y t hyt
  subst hyt
  simp [numStop] at h
  simp [h.1]

theorem parseNatTok_natToChars (n : Nat) (rest : List Char) (h : numStop rest = true) :
    parseNatTok (natToChars n ++ rest) = some (n, rest) := by
  have htd := takeWhile_append_all isDigitCh (natToChars n) rest
    (natToChars_digits n) (numStop_head_not_digit rest h)
  rcases hq : natToChars n with _ | ⟨d, ds⟩
  · exact absurd hq (natToChars_ne_nil _)
  · rw [hq] at htd
    rw [parseNatTok, htd.1, htd.2]
    by_cases hd0 : d = '0'
    · subst hd0
      have hds : ds = [] := (natToChars_no_leading_zero n ds hq).2
      have hn0 : n = 0 := (natToChars_no_leading_zero n ds hq).1
      subst hds
      subst hn0
      simp
    · have hcond : (d = '0' && !ds.isEmpty) = false := by simp [hd0]
      simp only [hcond, Bool.false_eq_true, if_false]
      rw [← hq, digitsVal_natToChars_zero]

theorem digit_facts (c : Char) (h : isDigitCh c = true) :
    c ≠ 'n' ∧ c ≠ 't' ∧ c ≠ 'f' ∧ c ≠ '"' ∧ c ≠ '\x7b' ∧ c ≠ '[' ∧ c ≠ ']' ∧
    c ≠ ',' ∧ c ≠ '-' ∧ isJsonWS c = false := by
  rw [isDigitCh] at h
  simp only [Bool.and_eq_true, decide_eq_true_eq] at h
  obtain ⟨h0, h9⟩ := h
  have hws : isJsonWS c = false := by
    cases hb : isJsonWS c
    · rfl
    · exfalso
      rw [isJsonWS] at hb
      simp only [Bool.or_eq_true, decide_eq_true_eq] at hb
      rcases hb with ((he | he) | he) | he <;> (subst he; revert h0; decide)
  refine ⟨?_, ?_, ?_, ?_, ?_, ?_, ?_, ?_, ?_, hws⟩ <;>
    first
    | (intro he; subst he; revert h9; decide)
    | (intro he; subst he; revert h0; decide)

theorem parseIntTok_intToChars (m : Int) (rest : List Char) (h : numStop rest = true) :
    parseIntTok (intToChars m ++ rest) = some (m, rest) := by
  by_cases hm : m < 0
  · rw [intToChars, if_pos hm]
    simp only [List.cons_append, parseIntTok]
    rw [parseNatTok_natToChars m.natAbs rest h]
    simp only [h, if_true]
    rw [Int.ofNat_natAbs_of_nonpos hm.le]
    simp
  · rw [intToChars, if_neg hm]
    rcases hq : natToChars m.toNat with _ | ⟨d, ds⟩
    · exact absurd hq (natToChars_ne_nil _)
    · have hd : isDigitCh d = true := by
        apply natToChars_digits m.toNat
        rw [hq]; simp
      have hdash : d ≠ '-' := (digit_facts d hd).2.2.2.2.2.2.2.2.1
      have key : parseNatTok (natToChars m.toNat ++ rest) = some (m.toNat, rest) :=
        parseNatTok_natToChars m.toNat rest h
      rw [hq] at key
      simp only [List.cons_append] at key
      simp [parseIntTok, hdash, key, h, Int.toNat_of_nonneg (by omega : (0 : Int) ≤ m)]

theorem hexVal_hexDigit : ∀ d, d < 16 → hexVal (hexDigit d) = some d := by decide

set_option maxHeartbeats 2000000 in
theorem parseStrBody_dumpStrBody (s : List Char) :
    ∀ rest, parseStrBody (dumpStrBody s ++ rest) = some (s, rest) := by
  induction s with
  | nil =>
    intro rest
    rw [dumpStrBody]
    simp [parseStrBody]
  | cons c cs ih =>
    intro rest
    rw [dumpStrBody, List.append_assoc]
    by_cases h1 : c = '"'
    · subst h1
      have he : escChar '"' = ['\\', '"'] := by decide
      rw [he]
      simp [parseStrBody, ih]
    by_cases h2 : c = '\\'
    · subst h2
      have he : escChar '\\' = ['\\', '\\'] := by decide
      rw [he]
      simp [parseStrBody, ih]
    by_cases h3 : c = '\n'
    · subst h3
      have he : escChar '\n' = ['\\', 'n'] := by decide
      rw [he]
      simp [parseStrBody, ih]
    by_cases h4 : c = '\t'
    · subst h4
      have he : escChar '\t' = ['\\', 't'] := by decide
      rw [he]
      simp [parseStrBody, ih]
    by_cases h5 : c = '\r'
    · subst h5
      have he : escChar '\r' = ['\\', 'r'] := by decide
      rw [he]
      simp [parseStrBody, ih]
    by_cases h6 : c = '\x08'
    · subst h6
      have he : escChar '\x08' = ['\\', 'b'] := by decide
      rw [he]
      simp [parseStrBody, ih]
    by_cases h7 : c = '\x0c'
    · subst h7
      have he : escChar '\x0c' = ['\\', 'f'] := by decide
      rw [he]
      simp [parseStrBody, ih]
    by_cases h8 : c.toNat < 32
    · have he : escChar c =
          ['\\', 'u', '0', '0', hexDigit (c.toNat / 16), hexDigit (c.toNat % 16)] := by
        rw [escChar]
        simp [h1, h2, h3, h4, h5, h6, h7, h8]
      rw [he]
      simp only [List.cons_append, List.nil_append]
      have hv1 : hexVal '0' = some 0 := by decide
      have hhi : c.toNat / 16 < 16 := by omega
      have hlo : c.toNat % 16 < 16 := by omega
      have hvalid : Nat.isValidChar c.toNat := Or.inl (by omega)
      have hcode : 4096 * 0 + 256 * 0 + 16 * (c.toNat / 16) + c.toNat % 16 = c.toNat := by
        omega
      simp only [parseStrBody, hv1, hexVal_hexDigit _ hhi, hexVal_hexDigit _ hlo]
      simp only [hcode, hvalid, if_true, ih rest, Char.ofNat_toNat]
      rfl
    · have he : escChar c = [c] := by
        rw [escChar]
        simp [h1, h2, h3, h4, h5, h6, h7, h8]
      rw [he]
      simp only [List.cons_append, List.nil_append]
      simp [parseStrBody, h1, h2, h8, ih]

theorem fuelJ_pos (v : Json) : 1 ≤ fuelJ v := by
  cases v <;> (rw [fuelJ]; try omega)

theorem fuelA_pos (xs : JArr) : 1 ≤ fuelA xs := by
  cases xs <;> (rw [fuelA]; try omega)

theorem fuelO_pos (kvs : JObj) : 1 ≤ fuelO kvs := by
  cases kvs <;> (rw [fuelO]; try omega)

theorem digit_facts2 (c : Char) (h : isDigitCh c = true) : c ≠ '\x7d' ∧ c ≠ ':' := by
  rw [isDigitCh] at h
  simp only [Bool.and_eq_true, decide_eq_true_eq] at h
  obtain ⟨h0, h9⟩ := h
  constructor <;> (intro he; subst he; revert h9; decide)

/-- The dump of any value starts with a character that is not JSON
whitespace and not one of the structural delimiters. -/
theorem dumpJson_head (v : Json) : ∃ c t, dumpJson v = c :: t ∧ isJsonWS c = false ∧
    c ≠ ']' ∧ c ≠ '\x7d' ∧ c ≠ ',' ∧ c ≠ ':' := by
  cases v with
  | null => exact ⟨'n', _, rfl, by decide, by decide, by decide, by decide, by decide⟩
  | jb b =>
    cases b
    · exact ⟨'f', _, rfl, by decide, by decide, by decide, by decide, by decide⟩
    · exact ⟨'t', _, rfl, by decide, by decide, by decide, by decide, by decide⟩
  | jn n =>
    rw [dumpJson]
    by_cases hn : n < 0
    · rw [intToChars, if_pos hn]
      exact ⟨'-', _, rfl, by decide, by decide, by decide, by decide, by decide⟩
    · rw [intToChars, if_neg hn]
      rcases hq : natToChars n.toNat with _ | ⟨d, ds⟩
      · exact absurd hq (natToChars_ne_nil _)
      · have hd : isDigitCh d = true := by
          apply natToChars_digits n.toNat
          rw [hq]; simp
        have hf := digit_facts d hd
        have hf2 := digit_facts2 d hd
        exact ⟨d, ds, rfl, hf.2.2.2.2.2.2.2.2.2, hf.2.2.2.2.2.2.1, hf2.1,
          hf.2.2.2.2.2.2.2.1, hf2.2⟩
  | js s => exact ⟨'"', _, rfl, by decide, by decide, by decide, by decide, by decide⟩
  | ja xs => exact ⟨'[', _, rfl, by decide, by decide, by decide, by decide, by decide⟩
  | jo kvs => exact ⟨'\x7b', _, rfl, by decide, by decide, by decide, by decide, by decide⟩

/-- The dump of array items after the first starts with a comma or the
closing bracket. -/
theorem dumpArrSep_head (xs : JArr) :
    ∃ c t, dumpArrSep xs = c :: t ∧ (c = ',' ∨ c = ']') := by
  cases xs with
  | anil => exact ⟨']', [], rfl, Or.inr rfl⟩
  | acons hd tl => exact ⟨',', _, rfl, Or.inl rfl⟩

/-- The dump of object items after the first starts with a comma or the
closing brace. -/
theorem dumpObjSep_head (kvs : JObj) :
    ∃ c t, dumpObjSep kvs = c :: t ∧ (c = ',' ∨ c = '\x7d') := by
  cases kvs with
  | onil => exact ⟨'\x7d', [], rfl, Or.inr rfl⟩
  | ocons k v tl => exact ⟨',', _, rfl, Or.inl rfl⟩

theorem numStop_comma (t : List Char) : numStop (',' :: t) = true := rfl

theorem numStop_rbracket (t : List Char) : numStop (']' :: t) = true := rfl

theorem numStop_rbrace (t : List Char) : numStop ('\x7d' :: t) = true := rfl

/-- parseVal ignores leading JSON whitespace. -/
theorem parseVal_cons_ws (f : Nat) (c : Char) (hc : isJsonWS c = true) (s : List Char) :
    parseVal (f + 1) (c :: s) = parseVal (f + 1) s := by
  simp only [parseVal, List.dropWhile_cons, hc, if_true]

set_option maxHeartbeats 2000000 in
/-- Main print-then-parse round trip for the fuel-indexed JSON parser,
by induction on the fuel. -/
theorem parse_dump_roundtrip (f : Nat) :
    (∀ v rest, numStop rest = true → fuelJ v ≤ f →
      parseVal f (dumpJson v ++ rest) = some (v, rest)) ∧
    (∀ xs rest, fuelA xs ≤ f →
      parseArrFirst f (dumpArrFirst xs ++ rest) = some (xs, rest) ∧
      parseArrSep f (dumpArrSep xs ++ rest) = some (xs, rest)) ∧
    (∀ kvs rest, fuelO kvs ≤ f →
      parseObjFirst f (dumpObjFirst kvs ++ rest) = some (kvs, rest) ∧
      parseObjSepP f (dumpObjSep kvs ++ rest) = some (kvs, rest)) ∧
    (∀ k v tl rest, 1 + max (fuelJ v) (fuelO tl) ≤ f →
      parseObjPair f (dumpStrBody k ++ ':' :: ' ' :: (dumpJson v ++ (dumpObjSep tl ++ rest))) =
        some (JObj.ocons k v tl, rest)) := by
  induction f with
  | zero =>
    refine ⟨?_, ?_, ?_, ?_⟩
    · intro v rest _ hf
      exact absurd hf (by have := fuelJ_pos v; omega)
    · intro xs rest hf
      exact absurd hf (by have := fuelA_pos xs; omega)
    · intro kvs rest hf
      exact absurd hf (by have := fuelO_pos kvs; omega)
    · intro k v tl rest hf
      exact absurd hf (by omega)
  | succ f ih =>
    obtain ⟨ihV, ihA, ihO, ihP⟩ := ih
    refine ⟨?_, ?_, ?_, ?_⟩
    · -- parseVal on a dumped value
      intro v rest hstop hfuel
      cases v with
      | null =>
        rw [dumpJson]
        simp [parseVal, stripLit, isJsonWS]
      | jb b =>
        cases b <;> (rw [dumpJson]; simp [parseVal, stripLit, isJsonWS])
      | jn n =>
        rw [dumpJson]
        have key := parseIntTok_intToChars n rest hstop
        by_cases hn : n < 0
        · rw [intToChars, if_pos hn] at key ⊢
          simp only [List.cons_append] at key ⊢
          simp [parseVal, isJsonWS, key]
        · rw [intToChars, if_neg hn] at key ⊢
          rcases hq : natToChars n.toNat with _ | ⟨d, ds⟩
          · exact absurd hq (natToChars_ne_nil _)
          · have hd : isDigitCh d = true := by
              apply natToChars_digits n.toNat
              rw [hq]; simp
            have hf := digit_facts d hd
            rw [hq] at key
            simp only [List.cons_append] at key ⊢
            simp [parseVal, hf.1, hf.2.1, hf.2.2.1, hf.2.2.2.1, hf.2.2.2.2.1,
              hf.2.2.2.2.2.1, hf.2.2.2.2.2.2.2.2.2, key]
      | js s =>
        rw [dumpJson, dumpStr]
        simp only [List.cons_append]
        simp [parseVal, isJsonWS, parseStrBody_dumpStrBody s rest]
      | ja xs =>
        rw [dumpJson]
        have hA : fuelA xs ≤ f := by
          rw [fuelJ] at hfuel; omega
        simp only [List.cons_append]
        simp [parseVal, isJsonWS, (ihA xs rest hA).1]
      | jo kvs =>
        rw [dumpJson]
        have hO : fuelO kvs ≤ f := by
          rw [fuelJ] at hfuel; omega
        simp only [List.cons_append]
        simp [parseVal, isJsonWS, (ihO kvs rest hO).1]
    · -- parseArrFirst and parseArrSep on dumped items
      intro xs rest hfuel
      constructor
      · cases xs with
        | anil =>
          rw [dumpArrFirst]
          simp [parseArrFirst, isJsonWS]
        | acons hd tl =>
          rw [dumpArrFirst, List.append_assoc]
          obtain ⟨c, t, hct, hws, hrb, _, _, _⟩ := dumpJson_head hd
          have hJ : fuelJ hd ≤ f := by rw [fuelA] at hfuel; omega
          have hT : fuelA tl ≤ f := by rw [fuelA] at hfuel; omega
          obtain ⟨c2, t2, hct2, hc2⟩ := dumpArrSep_head tl
          have hstop2 : numStop (dumpArrSep tl ++ rest) = true := by
            rw [hct2, List.cons_append]
            rcases hc2 with h | h <;> (subst h; rfl)
          have hv := ihV hd (dumpArrSep tl ++ rest) hstop2 hJ
          have hs := (ihA tl rest hT).2
          rw [hct] at hv ⊢
          simp only [List.cons_append] at hv ⊢
          simp [parseArrFirst, hws, hrb, hv, hs]
      · cases xs with
        | anil =>
          rw [dumpArrSep]
          simp [parseArrSep, isJsonWS]
        | acons hd tl =>
          rw [dumpArrSep]
          have hJ : fuelJ hd ≤ f := by rw [fuelA] at hfuel; omega
          have hT : fuelA tl ≤ f := by rw [fuelA] at hfuel; omega
          have hf1 : 1 ≤ f := le_trans (fuelJ_pos hd) hJ
          obtain ⟨f', rfl⟩ : ∃ f', f = f' + 1 := ⟨f - 1, by omega⟩
          obtain ⟨c2, t2, hct2, hc2⟩ := dumpArrSep_head tl
          have hstop2 : numStop (dumpArrSep tl ++ rest) = true := by
            rw [hct2, List.cons_append]
            rcases hc2 with h | h <;> (subst h; rfl)
          have hv := ihV hd (dumpArrSep tl ++ rest) hstop2 hJ
          have hs := (ihA tl rest hT).2
          simp only [List.cons_append, List.append_assoc]
          have hskip : parseVal (f' + 1) (' ' :: (dumpJson hd ++ (dumpArrSep tl ++ rest))) =
              parseVal (f' + 1) (dumpJson hd ++ (dumpArrSep tl ++ rest)) :=
            parseVal_cons_ws f' ' ' (by decide) _
          rw [parseArrSep]
          simp [isJsonWS, hskip, hv, hs]
    · -- parseObjFirst and parseObjSepP on dumped items
      intro kvs rest hfuel
      constructor
      · cases kvs with
        | onil =>
          rw [dumpObjFirst]
          simp [parseObjFirst, isJsonWS]
        | ocons k v tl =>
          rw [dumpObjFirst, dumpStr]
          have hP : 1 + max (fuelJ v) (fuelO tl) ≤ f := by rw [fuelO] at hfuel; omega
          have hp := ihP k v tl rest hP
          simp only [List.cons_append, List.append_assoc]
          simp [parseObjFirst, isJsonWS, hp]
      · cases kvs with
        | onil =>
          rw [dumpObjSep]
          simp [parseObjSepP, isJsonWS]
        | ocons k v tl =>
          rw [dumpObjSep, dumpStr]
          have hP : 1 + max (fuelJ v) (fuelO tl) ≤ f := by rw [fuelO] at hfuel; omega
          have hp := ihP k v tl rest hP
          simp only [List.cons_append, List.append_assoc]
          simp [parseObjSepP, isJsonWS, hp]
    · -- parseObjPair on a dumped pair
      intro k v tl rest hfuel
      have hJ : fuelJ v ≤ f := by omega
      have hT : fuelO tl ≤ f := by omega
      have hf1 : 1 ≤ f := le_trans (fuelJ_pos v) hJ
      obtain ⟨f', rfl⟩ : ∃ f', f = f' + 1 := ⟨f - 1, by omega⟩
      obtain ⟨c2, t2, hct2, hc2⟩ := dumpObjSep_head tl
      have hstop2 : numStop (dumpObjSep tl ++ rest) = true := by
        rw [hct2, List.cons_append]
        rcases hc2 with h | h <;> (subst h; rfl)
      have hv := ihV v (dumpObjSep tl ++ rest) hstop2 hJ
      have hs := (ihO tl rest hT).2
      have hskip : parseVal (f' + 1) (' ' :: (dumpJson v ++ (dumpObjSep tl ++ rest))) =
          parseVal (f' + 1) (dumpJson v ++ (dumpObjSep tl ++ rest)) :=
        parseVal_cons_ws f' ' ' (by decide) _
      simp [parseObjPair, parseStrBody_dumpStrBody k, isJsonWS, hskip, hv, hs]

theorem dumpJson_len_pos (v : Json) : 1 ≤ (dumpJson v).length := by
  obtain ⟨c, t, hct, -⟩ := dumpJson_head v
  rw [hct]
  simp

theorem dumpArrSep_len_pos (xs : JArr) : 1 ≤ (dumpArrSep xs).length := by
  obtain ⟨c, t, hct, -⟩ := dumpArrSep_head xs
  rw [hct]
  simp

theorem dumpObjSep_len_pos (kvs : JObj) : 1 ≤ (dumpObjSep kvs).length := by
  obtain ⟨c, t, hct, -⟩ := dumpObjSep_head kvs
  rw [hct]
  simp

mutual

/-- The fuel needed to parse a dumped value never exceeds its length. -/
theorem fuelJ_le (v : Json) : fuelJ v ≤ (dumpJson v).length := by
  cases v with
  | null => rw [fuelJ, dumpJson]; simp
  | jb b => cases b <;> (rw [fuelJ, dumpJson]; simp)
  | jn n =>
    rw [fuelJ, dumpJson, intToChars]
    by_cases hn : n < 0
    · rw [if_pos hn]; simp
    · rw [if_neg hn]
      rcases hq : natToChars n.toNat with _ | ⟨d, ds⟩
      · exact absurd hq (natToChars_ne_nil _)
      · simp
  | js s => rw [fuelJ, dumpJson, dumpStr]; simp
  | ja xs =>
    rw [fuelJ, dumpJson]
    have := (fuelA_le xs).1
    simp only [List.length_cons]
    omega
  | jo kvs =>
    rw [fuelJ, dumpJson]
    have := (fuelO_le kvs).1
    simp only [List.length_cons]
    omega

/-- Fuel bound for dumped array items, in both positions. -/
theorem fuelA_le (xs : JArr) :
    fuelA xs ≤ (dumpArrFirst xs).length ∧ fuelA xs ≤ (dumpArrSep xs).length := by
  cases xs with
  | anil => rw [fuelA, dumpArrFirst, dumpArrSep]; simp
  | acons hd tl =>
    have h1 := fuelJ_le hd
    have h2 := (fuelA_le tl).2
    have h3 := dumpJson_len_pos hd
    have h4 := dumpArrSep_len_pos tl
    rw [fuelA, dumpArrFirst, dumpArrSep]
    simp only [List.length_append, List.length_cons]
    omega

/-- Fuel bound for dumped object items, in both positions. -/
theorem fuelO_le (kvs : JObj) :
    fuelO kvs ≤ (dumpObjFirst kvs).length ∧ fuelO kvs ≤ (dumpObjSep kvs).length := by
  cases kvs with
  | onil => rw [fuelO, dumpObjFirst, dumpObjSep]; simp
  | ocons k v tl =>
    have h1 := fuelJ_le v
    have h2 := (fuelO_le tl).2
    have h3 := dumpJson_len_pos v
    have h4 := dumpObjSep_len_pos tl
    rw [fuelO, dumpObjFirst, dumpObjSep, dumpStr]
    simp only [List.length_append, List.length_cons]
    omega

end

/-- json.loads recovers any value from its json.dumps rendering. -/
theorem jsonLoads_dumpJson (v : Json) : jsonLoads (dumpJson v) = some v := by
  rw [jsonLoads]
  have h := (parse_dump_roundtrip ((dumpJson v).length + 1)).1 v [] rfl
    (le_trans (fuelJ_le v) (by omega))
  rw [List.append_nil] at h
  rw [h]
  simp

theorem matchTC_ge (s : List Char) (n : Nat) (g : List Char)
    (h : matchTC s = some (n, g)) : 12 ≤ n := by
  rw [matchTC] at h
  by_cases hp : markerChars.isPrefixOf s
  · rw [if_pos hp] at h
    dsimp only at h
    split at h
    · split at h
      · injection h with h1
        injection h1 with h2 _
        omega
      · exact absurd h (by simp)
    · exact absurd h (by simp)
  · rw [if_neg hp] at h
    exact absurd h (by simp)

/-! Support lemmas for the idempotence of extract_clean_response. -/

theorem lastBrace_none_not_mem (s : List Char) (h : lastBrace s = none) : '\x7d' ∉ s := by
  induction s with
  | nil => simp
  | cons c cs ih =>
    rw [lastBrace] at h
    intro hmem
    rcases hq : lastBrace cs with _ | i
    · rw [hq] at h
      dsimp at h
      rcases List.mem_cons.mp hmem with he | he
      · rw [← he] at h
        simp at h
      · exact ih hq he
    · rw [hq] at h
      simp at h

theorem lastBrace_isSome_of_mem (s : List Char) (h : '\x7d' ∈ s) :
    (lastBrace s).isSome = true := by
  rcases hq : lastBrace s with _ | i
  · exact absurd h (lastBrace_none_not_mem s hq)
  · rfl

theorem lastBrace_spec (s : List Char) (k : Nat) (h : lastBrace s = some k) :
    ∃ t, s.drop k = '\x7d' :: t ∧ '\x7d' ∉ t := by
  induction s generalizing k with
  | nil => simp [lastBrace] at h
  | cons c cs ih =>
    rw [lastBrace] at h
    rcases hq : lastBrace cs with _ | i
    · rw [hq] at h
      dsimp at h
      by_cases hc : c = '\x7d'
      · rw [if_pos hc] at h
        injection h with h0
        subst h0
        subst hc
        exact ⟨cs, by simp, lastBrace_none_not_mem cs hq⟩
      · rw [if_neg hc] at h
        exact absurd h (by simp)
    · rw [hq] at h
      injection h with h0
      obtain ⟨t, ht, hnt⟩ := ih i hq
      exact ⟨t, by rw [← h0]; simpa using ht, hnt⟩

theorem takeWhile_append_lt (p : Char → Bool) (a b : List Char)
    (h : ((a ++ b).takeWhile p).length < a.length) :
    (a ++ b).takeWhile p = a.takeWhile p := by
  induction a with
  | nil => simp at h
  | cons x a' ih =>
    simp only [List.cons_append, List.takeWhile_cons] at h ⊢
    cases hx : p x
    · simp [hx]
    · simp [hx] at h ⊢
      exact ih (by omega)

/-- Destructuring of a successful marker match into its components. -/
theorem matchTC_elim (s : List Char) (n : Nat) (g : List Char) (h : matchTC s = some (n, g)) :
    ∃ r3 k,
      markerChars.isPrefixOf s = true ∧
      (s.drop 10).drop ((s.drop 10).takeWhile isWS).length = '\x7b' :: r3 ∧
      lastBrace r3 = some k ∧
      n = 12 + ((s.drop 10).takeWhile isWS).length + k ∧
      g = '\x7b' :: r3.take (k + 1) := by
  rw [matchTC] at h
  by_cases hp : markerChars.isPrefixOf s
  · rw [if_pos hp] at h
    dsimp only at h
    split at h
    · rename_i r3 heq
      split at h
      · rename_i k hk
        injection h with h1
        injection h1 with h2 h3
        exact ⟨r3, k, hp, heq, hk, by omega, h3.symm⟩
      · exact absurd h (by simp)
    · exact absurd h (by simp)
  · rw [if_neg hp] at h
    exact absurd h (by simp)

/-- Reassembly of a marker match from its components. -/
theorem matchTC_intro (s : List Char) (r3 : List Char)
    (hp : markerChars.isPrefixOf s = true)
    (hdrop : (s.drop 10).drop ((s.drop 10).takeWhile isWS).length = '\x7b' :: r3)
    (hk : '\x7d' ∈ r3) :
    (matchTC s).isSome = true := by
  rw [matchTC, if_pos hp]
  dsimp only
  rw [hdrop]
  rcases hq : lastBrace r3 with _ | k
  · exact absurd hk (lastBrace_none_not_mem r3 hq)
  · simp [hq]

theorem takeWhile_append_congr (p : Char → Bool) (a b : List Char)
    (h : (a.takeWhile p).length < a.length) :
    (a ++ b).takeWhile p = a.takeWhile p := by
  induction a with
  | nil => simp at h
  | cons x a' ih =>
    simp only [List.cons_append, List.takeWhile_cons] at h ⊢
    cases hx : p x
    · simp [hx]
    · simp [hx] at h ⊢
      exact ih (by omega)

theorem matchTC_nil : matchTC [] = none := by decide

theorem drop_cons_of_drop (s : List Char) (i : Nat) (c : Char) (t : List Char)
    (h : s.drop i = c :: t) : s.drop (i + 1) = t := by
  have hd := List.drop_drop 1 i s
  rw [h] at hd
  simp at hd
  exact hd.symm

/-- No closing brace survives past a marker match: the greedy pattern
consumed the last one. -/
theorem matchTC_no_brace_after (s : List Char) (n : Nat) (g : List Char)
    (h : matchTC s = some (n, g)) : '\x7d' ∉ s.drop n := by
  obtain ⟨r3, k, hp, hdrop, hk, hn, hg⟩ := matchTC_elim s n g h
  obtain ⟨t, ht, hnt⟩ := lastBrace_spec r3 k hk
  set W := ((s.drop 10).takeWhile isWS).length with hW
  rw [List.drop_drop] at hdrop
  have hr3 := drop_cons_of_drop s (10 + W) _ _ hdrop
  have hd2 := List.drop_drop k (10 + W + 1) s
  rw [hr3, ht] at hd2
  have hdn := drop_cons_of_drop s (10 + W + 1 + k) _ _ hd2.symm
  rw [show n = 10 + W + 1 + k + 1 by omega, hdn]
  exact hnt

/-- A marker match contains a closing brace. -/
theorem matchTC_mem_brace (s : List Char) (n : Nat) (g : List Char)
    (h : matchTC s = some (n, g)) : '\x7d' ∈ s := by
  obtain ⟨r3, k, hp, hdrop, hk, hn, hg⟩ := matchTC_elim s n g h
  obtain ⟨t, ht, hnt⟩ := lastBrace_spec r3 k hk
  have hb : '\x7d' ∈ r3 := by
    have : '\x7d' ∈ r3.drop k := by rw [ht]; simp
    exact List.drop_subset k r3 this
  have hb2 : '\x7d' ∈ (s.drop 10).drop ((s.drop 10).takeWhile isWS).length := by
    rw [hdrop]
    simp [hb]
  exact List.drop_subset _ _ (List.drop_subset _ _ hb2)

/-- Key exchange lemma: a marker match in u followed by brace-free v
lives entirely inside u, so u followed by anything still matches. -/
theorem matchTC_extend (u v v' : List Char) (n : Nat) (g : List Char)
    (h : matchTC (u ++ v) = some (n, g)) (hv : '\x7d' ∉ v) :
    (matchTC (u ++ v')).isSome = true := by
  obtain ⟨r3, k, hp, hdrop, hk, hn, hg⟩ := matchTC_elim (u ++ v) n g h
  obtain ⟨t, ht, hnt⟩ := lastBrace_spec r3 k hk
  set W := (((u ++ v).drop 10).takeWhile isWS).length with hW
  rw [List.drop_drop] at hdrop
  have hr3 := drop_cons_of_drop _ _ _ _ hdrop
  have hd2 := List.drop_drop k (10 + W + 1) (u ++ v)
  rw [hr3, ht] at hd2
  have hpos : 10 + W + 1 + k < u.length := by
    by_contra hge
    push_neg at hge
    have hsp : (u ++ v).drop (10 + W + 1 + k) = v.drop (10 + W + 1 + k - u.length) := by
      rw [List.drop_append_eq_append_drop, List.drop_eq_nil_of_le hge]
      simp
    rw [hsp] at hd2
    have hmem : '\x7d' ∈ v := by
      apply List.drop_subset (10 + W + 1 + k - u.length)
      rw [← hd2]
      simp
    exact hv hmem
  have hsplit : (u ++ v).drop (10 + W) = u.drop (10 + W) ++ v := by
    rw [List.drop_append_eq_append_drop, show 10 + W - u.length = 0 by omega]
    simp
  rw [hsplit] at hdrop
  rcases hxu : u.drop (10 + W) with _ | ⟨x, xs⟩
  · exfalso
    have := congrArg List.length hxu
    simp [List.length_drop] at this
    omega
  · rw [hxu, List.cons_append] at hdrop
    have hxeq : x = '\x7b' := by injection hdrop
    have hxsr3 : xs ++ v = r3 := by injection hdrop
    subst hxeq
    have hulen : u.length = 10 + W + 1 + xs.length := by
      have hlq := congrArg List.length hxu
      simp [List.length_drop] at hlq
      omega
    have hxslen : k < xs.length := by omega
    have hbxs : '\x7d' ∈ xs := by
      have hdk2 : r3.drop k = xs.drop k ++ v := by
        rw [← hxsr3, List.drop_append_eq_append_drop, show k - xs.length = 0 by omega]
        simp
      rw [ht] at hdk2
      rcases hdk : xs.drop k with _ | ⟨y, ys⟩
      · exfalso
        have := congrArg List.length hdk
        simp [List.length_drop] at this
        omega
      · rw [hdk, List.cons_append] at hdk2
        have hy : '\x7d' = y := by injection hdk2
        apply List.drop_subset k
        rw [hdk, ← hy]
        simp
    have hpre : markerChars <+: u ++ v := List.isPrefixOf_iff_prefix.mp hp
    have hmlen : markerChars.length = 10 := by decide
    have hmtake : markerChars = (u ++ v).take 10 := by
      rw [← hmlen]
      exact List.prefix_iff_eq_take.mp hpre
    have htake10 : (u ++ v).take 10 = u.take 10 := by
      rw [List.take_append_eq_append_take, show 10 - u.length = 0 by omega]
      simp
    have hpu : markerChars <+: u := by
      apply List.prefix_iff_eq_take.mpr
      rw [hmlen, hmtake, htake10]
    have hp' : markerChars.isPrefixOf (u ++ v') = true :=
      List.isPrefixOf_iff_prefix.mpr (hpu.trans (List.prefix_append u v'))
    have ha : (u ++ v').drop 10 = u.drop 10 ++ v' := by
      rw [List.drop_append_eq_append_drop, show 10 - u.length = 0 by omega]
      simp
    have hav : (u ++ v).drop 10 = u.drop 10 ++ v := by
      rw [List.drop_append_eq_append_drop, show 10 - u.length = 0 by omega]
      simp
    have hlen10 : W < (u.drop 10).length := by
      simp only [List.length_drop]
      omega
    have htw : ((u.drop 10).takeWhile isWS).length = W := by
      have hW2 : W = ((u.drop 10 ++ v).takeWhile isWS).length := by rw [hW, hav]
      rw [takeWhile_append_lt isWS (u.drop 10) v (by rw [← hW2]; exact hlen10)] at hW2
      omega
    have hdw : (u.drop 10).drop W = '\x7b' :: xs := by
      rw [List.drop_drop]
      exact hxu
    have htw' : ((u.drop 10 ++ v').takeWhile isWS).length = W := by
      rw [takeWhile_append_congr isWS _ v' (by rw [htw]; exact hlen10), htw]
    have hdrop' : ((u ++ v').drop 10).drop (((u ++ v').drop 10).takeWhile isWS).length =
        '\x7b' :: (xs ++ v') := by
      rw [ha, htw', List.drop_append_eq_append_drop,
        show W - (u.drop 10).length = 0 by omega, hdw]
      simp
    exact matchTC_intro (u ++ v') (xs ++ v') hp' hdrop' (List.mem_append.mpr (Or.inl hbxs))

theorem hasM_iff (t : List Char) :
    hasM t = true ↔ ∃ j, (matchTC (t.drop j)).isSome = true := by
  induction t with
  | nil =>
    rw [hasM]
    simp [matchTC_nil]
  | cons c cs ih =>
    rw [hasM]
    constructor
    · intro h
      simp only [Bool.or_eq_true] at h
      rcases h with h1 | h2
      · exact ⟨0, by simpa using h1⟩
      · obtain ⟨j, hj⟩ := ih.mp h2
        exact ⟨j + 1, by simpa using hj⟩
    · rintro ⟨j, hj⟩
      simp only [Bool.or_eq_true]
      cases j with
      | zero => exact Or.inl (by simpa using hj)
      | succ j' => exact Or.inr (ih.mpr ⟨j', by simpa using hj⟩)

theorem subFuel_congr : ∀ f1 f2 : Nat, ∀ s : List Char,
    s.length ≤ f1 → s.length ≤ f2 → subFuel f1 s = subFuel f2 s := by
  intro f1
  induction f1 with
  | zero =>
    intro f2 s h1 h2
    have hs : s = [] := List.eq_nil_of_length_eq_zero (by omega)
    subst hs
    cases f2 <;> rfl
  | succ f1p ih =>
    intro f2 s h1 h2
    cases s with
    | nil => cases f2 <;> rfl
    | cons c cs =>
      obtain ⟨f2p, rfl⟩ : ∃ f2p, f2 = f2p + 1 := ⟨f2 - 1, by simp at h2; omega⟩
      rcases hm : matchTC (c :: cs) with _ | ⟨n, g⟩
      · simp only [subFuel, hm]
        rw [ih f2p cs (by simp at h1; omega) (by simp at h2; omega)]
      · have h12 := matchTC_ge _ _ _ hm
        simp only [subFuel, hm]
        exact ih f2p ((c :: cs).drop n)
          (by simp only [List.length_drop, List.length_cons]; simp at h1; omega)
          (by simp only [List.length_drop, List.length_cons]; simp at h2; omega)

theorem subF_cons_some (c : Char) (cs : List Char) (n : Nat) (g : List Char)
    (h : matchTC (c :: cs) = some (n, g)) :
    subF (c :: cs) = subF ((c :: cs).drop n) := by
  have h12 := matchTC_ge _ _ _ h
  rw [subF, subF]
  simp only [List.length_cons, subFuel, h]
  exact subFuel_congr cs.length _ _
    (by simp only [List.length_drop, List.length_cons]; omega) (le_refl _)

theorem subF_cons_none (c : Char) (cs : List Char)
    (h : matchTC (c :: cs) = none) :
    subF (c :: cs) = c :: subF cs := by
  rw [subF, subF]
  simp only [List.length_cons, subFuel, h]

theorem hasM_false_of_no_brace (t : List Char) (h : '\x7d' ∉ t) : hasM t = false := by
  cases hb : hasM t
  · rfl
  · exfalso
    obtain ⟨j, hj⟩ := (hasM_iff t).mp hb
    rcases ho : matchTC (t.drop j) with _ | ⟨n, g⟩
    · rw [ho] at hj
      simp at hj
    · exact h (List.drop_subset j t (matchTC_mem_brace _ n g ho))

theorem subF_nil : subF [] = [] := rfl

theorem subF_eq_self (s : List Char) (h : hasM s = false) : subF s = s := by
  induction s with
  | nil => exact subF_nil
  | cons c cs ih =>
    rw [hasM, Bool.or_eq_false_iff] at h
    obtain ⟨h1, h2⟩ := h
    have hnone : matchTC (c :: cs) = none := by
      rcases ho : matchTC (c :: cs) with _ | x
      · rfl
      · rw [ho] at h1
        simp at h1
    rw [subF_cons_none c cs hnone, ih h2]

/-- Structure of one re.sub pass: either nothing matched, or exactly
one span was removed, it reached the last closing brace, and nothing
matches the pattern before it. -/
theorem subF_decomp (s : List Char) :
    (subF s = s ∧ hasM s = false) ∨
    (∃ p n g, (∀ q, q < p → matchTC (s.drop q) = none) ∧
      matchTC (s.drop p) = some (n, g) ∧
      subF s = s.take p ++ s.drop (p + n) ∧
      '\x7d' ∉ s.drop (p + n)) := by
  induction s with
  | nil => exact Or.inl ⟨subF_nil, rfl⟩
  | cons c cs ih =>
    rcases hm : matchTC (c :: cs) with _ | ⟨n, g⟩
    · rcases ih with ⟨he, hh⟩ | ⟨p, n, g, hmin, hmatch, heq, hnb⟩
      · left
        refine ⟨?_, ?_⟩
        · rw [subF_cons_none c cs hm, he]
        · rw [hasM, hm]
          simp [hh]
      · right
        refine ⟨p + 1, n, g, ?_, ?_, ?_, ?_⟩
        · intro q hq
          cases q with
          | zero => simpa using hm
          | succ q' => simpa using hmin q' (by omega)
        · simpa using hmatch
        · rw [subF_cons_none c cs hm, heq,
            show p + 1 + n = (p + n) + 1 by omega]
          simp
        · rw [show p + 1 + n = (p + n) + 1 by omega, List.drop_succ_cons]
          exact hnb
    · right
      have hnb2 : '\x7d' ∉ (c :: cs).drop n := matchTC_no_brace_after _ n g hm
      have hnm : hasM ((c :: cs).drop n) = false := hasM_false_of_no_brace _ hnb2
      refine ⟨0, n, g, by intro q hq; omega, by simpa using hm, ?_, by simpa using hnb2⟩
      rw [subF_cons_some c cs n g hm, subF_eq_self _ hnm]
      simp

/-- After one re.sub pass nothing matches any more. -/
theorem hasM_subF (s : List Char) : hasM (subF s) = false := by
  rcases subF_decomp s with ⟨he, hh⟩ | ⟨p, n, g, hmin, hmatch, heq, hnb⟩
  · rw [he]
    exact hh
  · rw [heq]
    cases hb2 : hasM (s.take p ++ s.drop (p + n))
    · rfl
    · exfalso
      obtain ⟨j, hj⟩ := (hasM_iff _).mp hb2
      have hple : p ≤ s.length := by
        by_contra hgt
        push_neg at hgt
        have hnil : s.drop p = [] := List.drop_eq_nil_of_le (by omega)
        rw [hnil, matchTC_nil] at hmatch
        exact absurd hmatch (by simp)
      have hlen_take : (s.take p).length = p := by
        simp [hple]
      by_cases hjp : j < p
      · have hsp : (s.take p ++ s.drop (p + n)).drop j =
            (s.take p).drop j ++ s.drop (p + n) := by
          rw [List.drop_append_eq_append_drop, show j - (s.take p).length = 0 by omega]
          simp
        rw [hsp] at hj
        rcases ho : matchTC ((s.take p).drop j ++ s.drop (p + n)) with _ | ⟨n2, g2⟩
        · rw [ho] at hj
          simp at hj
        · have hext := matchTC_extend ((s.take p).drop j) (s.drop (p + n)) (s.drop p)
            n2 g2 ho hnb
          have hjs : (s.take p).drop j ++ s.drop p = s.drop j := by
            conv_rhs => rw [← List.take_append_drop p s]
            rw [List.drop_append_eq_append_drop, show j - (s.take p).length = 0 by omega]
            simp
          rw [hjs, hmin j hjp] at hext
          simp at hext
      · push_neg at hjp
        have hsp : (s.take p ++ s.drop (p + n)).drop j =
            (s.drop (p + n)).drop (j - p) := by
          rw [List.drop_append_eq_append_drop,
            List.drop_eq_nil_of_le (by omega), hlen_take]
          simp
        rw [hsp] at hj
        rcases ho : matchTC ((s.drop (p + n)).drop (j - p)) with _ | ⟨n2, g2⟩
        · rw [ho] at hj
          simp at hj
        · exact hnb (List.drop_subset _ _ (matchTC_mem_brace _ n2 g2 ho))

theorem dropWhile_invariant (p : Char → Bool) (l : List Char) :
    (l.dropWhile p).dropWhile p = l.dropWhile p := by
  induction l with
  | nil => rfl
  | cons c cs ih =>
    rw [List.dropWhile_cons]
    cases hc : p c
    · simp only [Bool.false_eq_true, if_false]
      rw [List.dropWhile_cons, hc]
      simp
    · simp only [if_true]
      exact ih

theorem head_dropWhile_false (p : Char → Bool) (l : List Char) :
    ∀ x, (l.dropWhile p).head? = some x → p x = false := by
  induction l with
  | nil => intro x hx; simp at hx
  | cons c cs ih =>
    intro x hx
    rw [List.dropWhile_cons] at hx
    by_cases hc : p c = true
    · rw [if_pos hc] at hx
      exact ih x hx
    · rw [if_neg hc] at hx
      simp at hx
      rw [← hx]
      simpa using hc

theorem dropWhile_eq_self_of_head (p : Char → Bool) (l : List Char)
    (h : ∀ x, l.head? = some x → p x = false) : l.dropWhile p = l := by
  cases l with
  | nil => rfl
  | cons c cs =>
    rw [List.dropWhile_cons, h c rfl]
    simp

/-- Every string is its stripped core with whitespace on both sides. -/
theorem pyStrip_decomp (s : List Char) :
    s = s.takeWhile isWS ++ pyStrip s ++
      ((s.dropWhile isWS).reverse.takeWhile isWS).reverse := by
  rw [pyStrip, List.append_assoc]
  conv_lhs => rw [← List.takeWhile_append_dropWhile isWS s]
  congr 1
  conv_lhs => rw [← List.reverse_reverse (s.dropWhile isWS),
    ← List.takeWhile_append_dropWhile isWS (s.dropWhile isWS).reverse]
  rw [List.reverse_append]

/-- Python str.strip is idempotent. -/
theorem pyStrip_idem (s : List Char) : pyStrip (pyStrip s) = pyStrip s := by
  have hcb : pyStrip s ++ ((s.dropWhile isWS).reverse.takeWhile isWS).reverse =
      s.dropWhile isWS := by
    rw [pyStrip, ← List.reverse_append, List.takeWhile_append_dropWhile,
      List.reverse_reverse]
  have hstepA : (pyStrip s).dropWhile isWS = pyStrip s := by
    apply dropWhile_eq_self_of_head
    intro x hx
    rcases hc : pyStrip s with _ | ⟨y, ys⟩
    · rw [hc] at hx
      simp at hx
    · rw [hc, List.head?_cons] at hx
      injection hx with h0
      subst h0
      have hh : (s.dropWhile isWS).head? = some y := by
        rw [← hcb, hc]
        simp
      exact head_dropWhile_false isWS s y hh
  have hrev : (pyStrip s).reverse = (s.dropWhile isWS).reverse.dropWhile isWS := by
    rw [pyStrip, List.reverse_reverse]
  have hstepB : (pyStrip s).reverse.dropWhile isWS = (pyStrip s).reverse := by
    rw [hrev]
    exact dropWhile_invariant isWS (s.dropWhile isWS).reverse
  conv_lhs => rw [pyStrip]
  rw [hstepA, hstepB, List.reverse_reverse]

/-- Matches are preserved when a string is wrapped on both sides, so a
match-free string has match-free infixes. -/
theorem hasM_of_infix (a m b : List Char) (h : hasM (a ++ (m ++ b)) = false) :
    hasM m = false := by
  cases hm2 : hasM m
  · rfl
  · exfalso
    obtain ⟨j, hj⟩ := (hasM_iff m).mp hm2
    rcases ho : matchTC (m.drop j) with _ | ⟨n2, g2⟩
    · rw [ho] at hj
      simp at hj
    · have hjm : j ≤ m.length := by
        by_contra hgt
        push_neg at hgt
        rw [List.drop_eq_nil_of_le (by omega), matchTC_nil] at ho
        exact absurd ho (by simp)
      have ho2 : matchTC (m.drop j ++ []) = some (n2, g2) := by
        rw [List.append_nil]
        exact ho
      have hext := matchTC_extend (m.drop j) [] b n2 g2 ho2 (by simp)
      have hglob : (a ++ (m ++ b)).drop (a.length + j) = m.drop j ++ b := by
        rw [List.drop_append_eq_append_drop,
          List.drop_eq_nil_of_le (by omega : a.length ≤ a.length + j),
          show a.length + j - a.length = j by omega]
        rw [List.drop_append_eq_append_drop, show j - m.length = 0 by omega]
        simp
      have : hasM (a ++ (m ++ b)) = true :=
        (hasM_iff _).mpr ⟨a.length + j, by rw [hglob]; exact hext⟩
      rw [h] at this
      exact absurd this (by simp)

theorem jGet_of_not_hasKey : ∀ (kvs : JObj) (key : List Char),
    jHasKey kvs key = false → jGet kvs key = Json.null
  | JObj.onil, _, _ => rfl
  | JObj.ocons k v tl, key, h => by
    rw [jHasKey, Bool.or_eq_false_iff] at h
    rw [jGet, if_neg (by simpa using h.1)]
    exact jGet_of_not_hasKey tl key h.2

/-- Claim C9: in every assembled completion response, for any
prompt_tokens and completion_tokens inputs, the usage record satisfies
total_tokens = prompt_tokens + completion_tokens. -/
theorem claim_C9 (request : ChatCompletionRequest) (llm_response : List Char)
    (prompt_tokens completion_tokens : Int) (check_tool_calls : Bool)
    (freshCallId freshRespId : List Char) (now : Int) :
    (format_unified_response request llm_response prompt_tokens completion_tokens
      check_tool_calls freshCallId freshRespId now).usage.total_tokens =
    (format_unified_response request llm_response prompt_tokens completion_tokens
      check_tool_calls freshCallId freshRespId now).usage.prompt_tokens +
    (format_unified_response request llm_response prompt_tokens completion_tokens
      check_tool_calls freshCallId freshRespId now).usage.completion_tokens := by
  rw [format_unified_response]
  dsimp only
  split <;> rfl

/-- Claim C1: the assembled completion response always has exactly one
choice; when the parser finds a structured call the choice carries an
assistant message with empty content, exactly one tool call with the
freshly generated identifier, and finish_reason tool_calls; otherwise
it carries the marker-stripped text and finish_reason stop. -/
theorem claim_C1 (request : ChatCompletionRequest) (llm_response : List Char)
    (prompt_tokens completion_tokens : Int) (freshCallId freshRespId : List Char) (now : Int) :
    (format_unified_response request llm_response prompt_tokens completion_tokens
      true freshCallId freshRespId now).choices.length = 1 ∧
    (∀ tc, parse_tool_call llm_response = some tc →
      (format_unified_response request llm_response prompt_tokens completion_tokens
        true freshCallId freshRespId now).choices =
      [{ index := 0,
         message := { role := "assistant".data, content := [],
                      tool_calls := some [{ id := freshCallId, type := "function".data,
                                            function_name := tc.tool_name,
                                            function_arguments := dumpJson tc.arguments }] },
         finish_reason := "tool_calls".data }]) ∧
    (parse_tool_call llm_response = none →
      (format_unified_response request llm_response prompt_tokens completion_tokens
        true freshCallId freshRespId now).choices =
      [{ index := 0,
         message := { role := "assistant".data,
                      content := extract_clean_response llm_response, tool_calls := none },
         finish_reason := "stop".data }]) := by
  refine ⟨?_, ?_, ?_⟩
  · rw [format_unified_response]
    dsimp only
    split <;> rfl
  · intro tc htc
    simp [format_unified_response, htc]
  · intro hnone
    simp [format_unified_response, hnone]

/-- Concrete instantiations of claim C1 on a tool-call text and on a
plain text. -/
theorem claim_C1_witness :
    (format_unified_response ⟨"m".data, [], none⟩
      ("TOOL_CALL: \x7b\"tool_name\": \"t\", \"arguments\": \x7b\x7d\x7d".data)
      1 2 true ("cid".data) ("rid".data) 0).choices =
    [{ index := 0,
       message := { role := "assistant".data, content := [],
                    tool_calls := some [{ id := "cid".data, type := "function".data,
                                          function_name := Json.js ("t".data),
                                          function_arguments := dumpJson (Json.jo JObj.onil) }] },
       finish_reason := "tool_calls".data }] ∧
    (format_unified_response ⟨"m".data, [], none⟩ ("hi".data)
      1 2 true ("cid".data) ("rid".data) 0).choices =
    [{ index := 0,
       message := { role := "assistant".data,
                    content := extract_clean_response ("hi".data), tool_calls := none },
       finish_reason := "stop".data }] := by
  constructor
  · exact (claim_C1 ⟨"m".data, [], none⟩
      ("TOOL_CALL: \x7b\"tool_name\": \"t\", \"arguments\": \x7b\x7d\x7d".data)
      1 2 ("cid".data) ("rid".data) 0).2.1
      ⟨Json.js ("t".data), Json.jo JObj.onil⟩ (by decide)
  · exact (claim_C1 ⟨"m".data, [], none⟩ ("hi".data)
      1 2 ("cid".data) ("rid".data) 0).2.2 (by decide)

/-- Claim C2 counterexample: for a text holding the marker followed by
a brace span of invalid JSON, the parser does return absent and the
finish reason is stop, but the assembled content is the
marker-stripped text, not the raw text passed through unmodified. -/
theorem claim_C2_counterexample :
    parse_tool_call ("hello TOOL_CALL: \x7bnot json\x7d".data) = none ∧
    (format_unified_response ⟨"m".data, [], none⟩
      ("hello TOOL_CALL: \x7bnot json\x7d".data) 0 0 true [] [] 0).choices =
    [{ index := 0,
       message := { role := "assistant".data, content := "hello".data, tool_calls := none },
       finish_reason := "stop".data }] ∧
    ("hello".data : List Char) ≠ ("hello TOOL_CALL: \x7bnot json\x7d".data) := by
  refine ⟨by decide, ?_, by decide⟩
  have hp : parse_tool_call ("hello TOOL_CALL: \x7bnot json\x7d".data) = none := by decide
  have hc : extract_clean_response ("hello TOOL_CALL: \x7bnot json\x7d".data) =
      "hello".data := by decide
  simp [format_unified_response, hp, hc]

/-- Claim C2 (amended): when the marker pattern is found but its brace
group is not valid JSON, the parser returns absent rather than
raising, and the assembled response degrades to the plain path with
finish_reason stop and the marker-stripped text (the matched span
removed and whitespace trimmed) as content. -/
theorem claim_C2 (request : ChatCompletionRequest) (llm_response g : List Char)
    (prompt_tokens completion_tokens : Int) (freshCallId freshRespId : List Char) (now : Int)
    (hfind : findTC llm_response = some g) (hbad : jsonLoads g = none) :
    parse_tool_call llm_response = none ∧
    (format_unified_response request llm_response prompt_tokens completion_tokens
      true freshCallId freshRespId now).choices =
    [{ index := 0,
       message := { role := "assistant".data,
                    content := extract_clean_response llm_response, tool_calls := none },
       finish_reason := "stop".data }] := by
  have hp : parse_tool_call llm_response = none := by
    simp [parse_tool_call, hfind, hbad]
  exact ⟨hp, by simp [format_unified_response, hp]⟩

/-- Concrete instantiation of claim C2 on a malformed marker text. -/
theorem claim_C2_witness :
    parse_tool_call ("hi TOOL_CALL: \x7bbad\x7d".data) = none ∧
    (format_unified_response ⟨"m".data, [], none⟩ ("hi TOOL_CALL: \x7bbad\x7d".data)
      0 0 true [] [] 0).choices =
    [{ index := 0,
       message := { role := "assistant".data,
                    content := extract_clean_response ("hi TOOL_CALL: \x7bbad\x7d".data),
                    tool_calls := none },
       finish_reason := "stop".data }] :=
  claim_C2 ⟨"m".data, [], none⟩ ("hi TOOL_CALL: \x7bbad\x7d".data) ("\x7bbad\x7d".data)
    0 0 [] [] 0 (by decide) (by decide)

/-- Claim C8: when the marker is followed by a valid JSON object that
lacks the tool_name key, the parser still returns a present call with
a null name and defaulted arguments, and the assembler emits a
tool_calls response carrying that null name instead of falling back to
the plain-text path. -/
theorem claim_C8 (request : ChatCompletionRequest) (llm_response g : List Char) (kvs : JObj)
    (prompt_tokens completion_tokens : Int) (freshCallId freshRespId : List Char) (now : Int)
    (hfind : findTC llm_response = some g) (hobj : jsonLoads g = some (Json.jo kvs))
    (hmiss : jHasKey kvs ("tool_name".data) = false) :
    parse_tool_call llm_response =
      some ⟨Json.null, jGetD kvs ("arguments".data) (Json.jo JObj.onil)⟩ ∧
    (format_unified_response request llm_response prompt_tokens completion_tokens
      true freshCallId freshRespId now).choices =
    [{ index := 0,
       message := { role := "assistant".data, content := [],
                    tool_calls := some [{ id := freshCallId, type := "function".data,
                                          function_name := Json.null,
                                          function_arguments :=
                                            dumpJson (jGetD kvs ("arguments".data) (Json.jo JObj.onil)) }] },
       finish_reason := "tool_calls".data }] := by
  have hp : parse_tool_call llm_response =
      some ⟨Json.null, jGetD kvs ("arguments".data) (Json.jo JObj.onil)⟩ := by
    simp [parse_tool_call, hfind, hobj, jGet_of_not_hasKey kvs _ hmiss]
  exact ⟨hp, by simp [format_unified_response, hp]⟩

/-- Concrete instantiation of claim C8 on a marker object without a
tool_name key. -/
theorem claim_C8_witness :
    parse_tool_call ("TOOL_CALL: \x7b\"arguments\": \x7b\x7d\x7d".data) =
      some ⟨Json.null, jGetD (JObj.ocons ("arguments".data) (Json.jo JObj.onil) JObj.onil)
        ("arguments".data) (Json.jo JObj.onil)⟩ ∧
    (format_unified_response ⟨"m".data, [], none⟩
      ("TOOL_CALL: \x7b\"arguments\": \x7b\x7d\x7d".data) 0 0 true [] [] 0).choices =
    [{ index := 0,
       message := { role := "assistant".data, content := [],
                    tool_calls := some [{ id := [], type := "function".data,
                                          function_name := Json.null,
                                          function_arguments :=
                                            dumpJson (jGetD (JObj.ocons ("arguments".data) (Json.jo JObj.onil) JObj.onil)
                                              ("arguments".data) (Json.jo JObj.onil)) }] },
       finish_reason := "tool_calls".data }] :=
  claim_C8 ⟨"m".data, [], none⟩ ("TOOL_CALL: \x7b\"arguments\": \x7b\x7d\x7d".data)
    ("\x7b\"arguments\": \x7b\x7d\x7d".data)
    (JObj.ocons ("arguments".data) (Json.jo JObj.onil) JObj.onil)
    0 0 [] [] 0 (by decide) (by decide) (by decide)

/-- Claim C5: marker stripping is idempotent; applying the
clean-response extraction twice yields the same string as applying it
once, for every text. -/
theorem claim_C5 (x : List Char) :
    extract_clean_response (extract_clean_response x) = extract_clean_response x := by
  have h1 : hasM (subF x) = false := hasM_subF x
  have hd := pyStrip_decomp (subF x)
  rw [List.append_assoc] at hd
  have h2 : hasM (pyStrip (subF x)) = false := by
    apply hasM_of_infix ((subF x).takeWhile isWS) _
      (((subF x).dropWhile isWS).reverse.takeWhile isWS).reverse
    rw [← hd]
    exact h1
  rw [extract_clean_response, extract_clean_response, subF_eq_self _ h2, pyStrip_idem]

theorem trim_loop_suffix (maxLen : Nat) (tools : Option (List Tool))
    (tool_result : Option (List Char)) :
    ∀ msgs : List ChatMessage, trim_loop maxLen tools tool_result msgs <:+ msgs := by
  intro msgs
  induction msgs with
  | nil => exact List.suffix_refl _
  | cons m1 rest ih =>
    cases rest with
    | nil => exact List.suffix_refl _
    | cons m2 rest2 =>
      rw [trim_loop]
      split
      · exact ⟨[m1], rfl⟩
      · have h2 := ih
        exact h2.trans ⟨[m1], rfl⟩

theorem trim_loop_budget (maxLen : Nat) (tools : Option (List Tool))
    (tool_result : Option (List Char)) :
    ∀ msgs : List ChatMessage,
      (trim_loop maxLen tools tool_result msgs).length ≤ 1 ∨
      calculate_prompt_length (trim_loop maxLen tools tool_result msgs) tools tool_result ≤
        maxLen := by
  intro msgs
  induction msgs with
  | nil => left; simp [trim_loop]
  | cons m1 rest ih =>
    cases rest with
    | nil => left; simp [trim_loop]
    | cons m2 rest2 =>
      rw [trim_loop]
      split
      · right
        assumption
      · exact ih

theorem trim_loop_ne_nil (maxLen : Nat) (tools : Option (List Tool))
    (tool_result : Option (List Char)) :
    ∀ msgs : List ChatMessage, msgs ≠ [] → trim_loop maxLen tools tool_result msgs ≠ [] := by
  intro msgs
  induction msgs with
  | nil => intro h; exact absurd rfl h
  | cons m1 rest ih =>
    intro _
    cases rest with
    | nil => simp [trim_loop]
    | cons m2 rest2 =>
      rw [trim_loop]
      split
      · simp
      · exact ih (by simp)

theorem trim_ne_nil (maxLen : Nat) (messages : List ChatMessage)
    (tools : Option (List Tool)) (tool_result : Option (List Char))
    (h : messages ≠ []) :
    trim_messages_to_fit maxLen messages tools tool_result ≠ [] := by
  rw [trim_messages_to_fit]
  rw [if_neg (by simpa using h)]
  split
  · exact h
  · exact trim_loop_ne_nil maxLen tools tool_result messages h

/-- Claim C3: the trimmed history is a contiguous newest-suffix of the
input whose estimated length fits the budget, except when at most one
message remains; a non-empty input always keeps its newest message. -/
theorem claim_C3 (maxLen : Nat) (messages : List ChatMessage)
    (tools : Option (List Tool)) (tool_result : Option (List Char)) :
    trim_messages_to_fit maxLen messages tools tool_result <:+ messages ∧
    ((trim_messages_to_fit maxLen messages tools tool_result).length ≤ 1 ∨
      calculate_prompt_length (trim_messages_to_fit maxLen messages tools tool_result)
        tools tool_result ≤ maxLen) ∧
    (messages ≠ [] →
      trim_messages_to_fit maxLen messages tools tool_result ≠ [] ∧
      (trim_messages_to_fit maxLen messages tools tool_result).getLast? =
        messages.getLast?) := by
  have hsuf : trim_messages_to_fit maxLen messages tools tool_result <:+ messages := by
    rw [trim_messages_to_fit]
    split
    · exact List.suffix_refl _
    · split
      · exact List.suffix_refl _
      · exact trim_loop_suffix maxLen tools tool_result messages
  refine ⟨hsuf, ?_, ?_⟩
  · rw [trim_messages_to_fit]
    split
    · left
      rename_i he
      simp at he
      simp [he]
    · split
      · right
        assumption
      · exact trim_loop_budget maxLen tools tool_result messages
  · intro hne
    have hn := trim_ne_nil maxLen messages tools tool_result hne
    refine ⟨hn, ?_⟩
    obtain ⟨pre, hpre⟩ := hsuf
    conv_rhs => rw [← hpre]
    rw [List.getLast?_append_of_ne_nil pre hn]

/-- Concrete instantiation of claim C3: a two-message history over
budget keeps only the newest message. -/
theorem claim_C3_witness :
    trim_messages_to_fit 0 [⟨"user".data, ContentValue.text ("a".data), none, none⟩,
      ⟨"user".data, ContentValue.text ("b".data), none, none⟩] none none ≠ [] ∧
    (trim_messages_to_fit 0 [⟨"user".data, ContentValue.text ("a".data), none, none⟩,
      ⟨"user".data, ContentValue.text ("b".data), none, none⟩] none none).getLast? =
    ([⟨"user".data, ContentValue.text ("a".data), none, none⟩,
      ⟨"user".data, ContentValue.text ("b".data), none, none⟩] :
        List ChatMessage).getLast? :=
  (claim_C3 0 [⟨"user".data, ContentValue.text ("a".data), none, none⟩,
    ⟨"user".data, ContentValue.text ("b".data), none, none⟩] none none).2.2 (by decide)

/-- Claim C10: compiling a prompt from the empty message list fails
(the final-message access is out of bounds), while every non-empty
message list totally produces a prompt string. -/
theorem claim_C10 (maxLen : Nat) (tools : Option (List Tool))
    (tool_result : Option (List Char)) :
    build_unified_tool_prompt maxLen [] tools tool_result = none ∧
    (∀ messages : List ChatMessage, messages ≠ [] →
      (build_unified_tool_prompt maxLen messages tools tool_result).isSome = true) := by
  constructor
  · rw [build_unified_tool_prompt]
    have ht : trim_messages_to_fit maxLen [] tools tool_result = [] := by
      rw [trim_messages_to_fit]
      simp
    rw [ht]
    rfl
  · intro messages hne
    rw [build_unified_tool_prompt]
    have hn := trim_ne_nil maxLen messages tools tool_result hne
    rcases hg : (trim_messages_to_fit maxLen messages tools tool_result).getLast? with _ | last
    · exact absurd (List.getLast?_eq_none_iff.mp hg) hn
    · dsimp only
      split <;> rfl

/-- Concrete instantiation of claim C10 on a one-message history. -/
theorem claim_C10_witness :
    build_unified_tool_prompt 200000 [] none none = none ∧
    (build_unified_tool_prompt 200000
      [⟨"user".data, ContentValue.text ("Hello".data), none, none⟩] none none).isSome =
      true :=
  ⟨(claim_C10 200000 none none).1,
   (claim_C10 200000 none none).2
     [⟨"user".data, ContentValue.text ("Hello".data), none, none⟩] (by decide)⟩

theorem scanToolResult_iff (l : List ChatMessage) :
    scanToolResult l = true ↔
      ∃ m, l.find? isToolRelevant = some m ∧ m.role = "tool".data := by
  induction l with
  | nil => simp [scanToolResult]
  | cons m rest ih =>
    rw [scanToolResult]
    by_cases h1 : m.role = "tool".data
    · rw [if_pos h1]
      have hrel : isToolRelevant m = true := by
        rw [isToolRelevant]
        simp [h1]
      rw [List.find?_cons_of_pos _ hrel]
      simp [h1]
    · rw [if_neg h1]
      by_cases h2 : m.role = "assistant".data ∧ optListTruthy m.tool_calls = true
      · rw [if_pos (by simp [h2.1, h2.2])]
        have hrel : isToolRelevant m = true := by
          rw [isToolRelevant]
          simp [h2.1, h2.2]
        rw [List.find?_cons_of_pos _ hrel]
        simp [h1]
      · have hcond : (decide (m.role = "assistant".data) && optListTruthy m.tool_calls) =
            false := by
          by_cases hA : m.role = "assistant".data
          · have hT : optListTruthy m.tool_calls = false := by
              cases hb : optListTruthy m.tool_calls
              · rfl
              · exact absurd ⟨hA, hb⟩ h2
            simp [hT]
          · simp [hA]
        rw [if_neg (by simp [hcond])]
        have hrel : isToolRelevant m = false := by
          rw [isToolRelevant, hcond]
          simp [h1]
        rw [List.find?_cons_of_neg _ (by simp [hrel])]
        exact ih

/-- Claim C6: the classifier reports the tool-result state exactly
when the first tool-relevant message of the backward scan has role
tool; an assistant message with pending tool calls seen first, or no
relevant message at all, yields the non-tool-result outcome; and
classification always lands in one of the three defined states. -/
theorem claim_C6 (request : ChatCompletionRequest) :
    (is_tool_result_request request = true ↔
      ∃ m, request.messages.reverse.find? isToolRelevant = some m ∧
        m.role = "tool".data) ∧
    (∀ m, request.messages.reverse.find? isToolRelevant = some m →
      m.role = "assistant".data → optListTruthy m.tool_calls = true →
      is_tool_result_request request = false) ∧
    (request.messages.reverse.find? isToolRelevant = none →
      is_tool_result_request request = false) ∧
    (classify_conversation request = ConversationState.toolResultPending ∨
     classify_conversation request = ConversationState.toolInvocationEligible ∨
     classify_conversation request = ConversationState.plain) := by
  have hiff := scanToolResult_iff request.messages.reverse
  rw [is_tool_result_request]
  refine ⟨hiff, ?_, ?_, ?_⟩
  · intro m hm hrole htr
    cases hb : scanToolResult request.messages.reverse
    · rfl
    · exfalso
      obtain ⟨m2, hm2, hrole2⟩ := hiff.mp hb
      rw [hm] at hm2
      injection hm2 with he
      subst he
      rw [hrole] at hrole2
      have : ("assistant".data : List Char) ≠ "tool".data := by decide
      exact this hrole2
  · intro hnone
    cases hb : scanToolResult request.messages.reverse
    · rfl
    · exfalso
      obtain ⟨m2, hm2, hrole2⟩ := hiff.mp hb
      rw [hnone] at hm2
      exact absurd hm2 (by simp)
  · cases hc : classify_conversation request with
    | toolResultPending => exact Or.inl rfl
    | toolInvocationEligible => exact Or.inr (Or.inl rfl)
    | plain => exact Or.inr (Or.inr rfl)

/-- Concrete instantiations of claim C6: one history ending in a tool
result, one ending in an assistant message with pending tool calls,
and one with no relevant message. -/
theorem claim_C6_witness :
    is_tool_result_request ⟨"m".data,
      [⟨"user".data, ContentValue.text ("q".data), none, none⟩,
       ⟨"assistant".data, ContentValue.text [], some [⟨"i".data, "f".data, "a".data⟩], none⟩,
       ⟨"tool".data, ContentValue.text ("r".data), none, some ("i".data)⟩], none⟩ = true ∧
    is_tool_result_request ⟨"m".data,
      [⟨"user".data, ContentValue.text ("q".data), none, none⟩,
       ⟨"assistant".data, ContentValue.text [], some [⟨"i".data, "f".data, "a".data⟩],
        none⟩], none⟩ = false ∧
    is_tool_result_request ⟨"m".data,
      [⟨"user".data, ContentValue.text ("q".data), none, none⟩], none⟩ = false := by
  refine ⟨?_, ?_, ?_⟩
  · exact (claim_C6 _).1.mpr
      ⟨⟨"tool".data, ContentValue.text ("r".data), none, some ("i".data)⟩, by decide, by decide⟩
  · exact (claim_C6 _).2.1
      ⟨"assistant".data, ContentValue.text [], some [⟨"i".data, "f".data, "a".data⟩], none⟩
      (by decide) (by decide) (by decide)
  · exact (claim_C6 _).2.2.1 (by decide)

/-- Claim C7 counterexample: an assistant message carrying a
structured call is rendered naming only the tool; the arguments text
does not occur in the rendered history, refuting the claim that the
line carries the arguments as well. -/
theorem claim_C7_counterexample :
    format_conversation_history
      [⟨"assistant".data, ContentValue.text [],
        some [⟨"call1".data, "get_time".data, "ARGS_MARKER_XYZ".data⟩], none⟩] =
      "助手: 调用工具 get_time".data ∧
    ¬ ("ARGS_MARKER_XYZ".data <:+: format_conversation_history
      [⟨"assistant".data, ContentValue.text [],
        some [⟨"call1".data, "get_time".data, "ARGS_MARKER_XYZ".data⟩], none⟩]) := by
  constructor
  · decide
  · decide

/-- Claim C7 (amended): assistant messages carrying structured calls
are rendered as terse lines naming each called tool, without the call
arguments, and messages with unrecognized roles are skipped from the
rendering without error. -/
theorem claim_C7 (m : ChatMessage) (msgs : List ChatMessage) :
    (m.role = "assistant".data → optListTruthy m.tool_calls = true →
      render_history_line m = some ("助手: ".data ++ List.intercalate ("; ".data)
        ((m.tool_calls.getD []).map fun tc => "调用工具 ".data ++ tc.function_name))) ∧
    (m.role ≠ "user".data → m.role ≠ "assistant".data → m.role ≠ "tool".data →
      render_history_line m = none ∧
      format_conversation_history (m :: msgs) = format_conversation_history msgs) := by
  constructor
  · intro hrole htc
    rw [render_history_line]
    have hne : m.role ≠ "user".data := by
      rw [hrole]
      decide
    rw [if_neg hne, if_pos hrole, if_pos htc]
  · intro h1 h2 h3
    have hline : render_history_line m = none := by
      rw [render_history_line]
      rw [if_neg h1, if_neg h2, if_neg h3]
    refine ⟨hline, ?_⟩
    rw [format_conversation_history, format_conversation_history,
      List.filterMap_cons_none hline]

/-- Concrete instantiations of claim C7 on an assistant message with a
call and on a system-role message. -/
theorem claim_C7_witness :
    render_history_line ⟨"assistant".data, ContentValue.text [],
      some [⟨"i".data, "get_time".data, "a".data⟩], none⟩ =
      some ("助手: ".data ++ List.intercalate ("; ".data)
        (([⟨"i".data, "get_time".data, "a".data⟩] : List MsgToolCall).map
          fun tc => "调用工具 ".data ++ tc.function_name)) ∧
    format_conversation_history
      [⟨"system".data, ContentValue.text ("x".data), none, none⟩] =
      format_conversation_history [] := by
  constructor
  · exact (claim_C7 ⟨"assistant".data, ContentValue.text [],
      some [⟨"i".data, "get_time".data, "a".data⟩], none⟩ []).1 (by decide) (by decide)
  · exact ((claim_C7 ⟨"system".data, ContentValue.text ("x".data), none, none⟩ []).2
      (by decide) (by decide) (by decide)).2

theorem lastBrace_concat (xs : List Char) :
    lastBrace (xs ++ ['\x7d']) = some xs.length := by
  induction xs with
  | nil => rfl
  | cons c cs ih =>
    rw [List.cons_append, lastBrace, ih]
    simp

theorem dumpObjSep_concat : ∀ kvs : JObj, ∃ ys, dumpObjSep kvs = ys ++ ['\x7d']
  | JObj.onil => ⟨[], rfl⟩
  | JObj.ocons k v tl => by
    obtain ⟨ys, hy⟩ := dumpObjSep_concat tl
    refine ⟨',' :: ' ' :: (dumpStr k ++ ':' :: ' ' :: (dumpJson v ++ ys)), ?_⟩
    rw [dumpObjSep, hy]
    simp

theorem dumpObjFirst_concat (kvs : JObj) : ∃ ys, dumpObjFirst kvs = ys ++ ['\x7d'] := by
  cases kvs with
  | onil => exact ⟨[], rfl⟩
  | ocons k v tl =>
    obtain ⟨ys, hy⟩ := dumpObjSep_concat tl
    refine ⟨dumpStr k ++ ':' :: ' ' :: (dumpJson v ++ ys), ?_⟩
    rw [dumpObjFirst, hy]
    simp

/-- The marker followed by one space and a dumped object matches the
tool-call pattern, and the greedy capture is exactly the dumped
object. -/
theorem matchTC_marker_space_obj (kvs : JObj) :
    ∃ nn, matchTC (markerChars ++ (' ' :: dumpJson (Json.jo kvs))) =
      some (nn, dumpJson (Json.jo kvs)) := by
  obtain ⟨ys, hy⟩ := dumpObjFirst_concat kvs
  have hp : markerChars.isPrefixOf (markerChars ++ (' ' :: dumpJson (Json.jo kvs))) = true :=
    List.isPrefixOf_iff_prefix.mpr (List.prefix_append _ _)
  have hdrop : (markerChars ++ (' ' :: dumpJson (Json.jo kvs))).drop 10 =
      ' ' :: dumpJson (Json.jo kvs) := by
    rw [show (10 : Nat) = markerChars.length from by decide]
    exact List.drop_left _ _
  have htw : (' ' :: dumpJson (Json.jo kvs)).takeWhile isWS = [' '] := by
    rw [dumpJson, List.takeWhile_cons, List.takeWhile_cons]
    simp [show isWS ' ' = true from by decide, show isWS '\x7b' = false from by decide]
  have htk : (dumpObjFirst kvs).take (ys.length + 1) = dumpObjFirst kvs := by
    rw [hy, show ys.length + 1 = (ys ++ ['\x7d']).length from by simp]
    exact List.take_length _
  refine ⟨13 + ys.length, ?_⟩
  rw [matchTC, if_pos hp]
  dsimp only
  rw [hdrop, htw]
  simp only [List.length_cons, List.length_nil]
  rw [show List.drop (0 + 1) (' ' :: dumpJson (Json.jo kvs)) = dumpJson (Json.jo kvs) from rfl]
  conv_lhs => rw [dumpJson]
  simp only []
  rw [hy, lastBrace_concat]
  simp only []
  rw [← hy, htk, ← dumpJson]
  have : 10 + (0 + 1) + 1 + (ys.length + 1) = 13 + ys.length := by omega
  rw [this]

/-- Claim C4: parsing the text TOOL_CALL:, a space and the JSON
serialization of a dictionary with keys tool_name and arguments
recovers a present call with exactly that name and those arguments,
for every string name and every argument object. -/
theorem claim_C4 (name : List Char) (args : JObj) :
    parse_tool_call ("TOOL_CALL: ".data ++ dumpJson (Json.jo (JObj.ocons ("tool_name".data)
      (Json.js name) (JObj.ocons ("arguments".data) (Json.jo args) JObj.onil)))) =
    some ⟨Json.js name, Json.jo args⟩ := by
  set d := Json.jo (JObj.ocons ("tool_name".data) (Json.js name)
    (JObj.ocons ("arguments".data) (Json.jo args) JObj.onil)) with hd
  have hsplit : "TOOL_CALL: ".data ++ dumpJson d = markerChars ++ (' ' :: dumpJson d) := by
    rw [show "TOOL_CALL: ".data = markerChars ++ [' '] from by decide]
    simp
  obtain ⟨nn, hm⟩ := matchTC_marker_space_obj (JObj.ocons ("tool_name".data) (Json.js name)
    (JObj.ocons ("arguments".data) (Json.jo args) JObj.onil))
  rw [← hd] at hm
  have hcons : markerChars ++ (' ' :: dumpJson d) =
      'T' :: (['O', 'O', 'L', '_', 'C', 'A', 'L', 'L', ':'] ++ (' ' :: dumpJson d)) := rfl
  have hfind : findTC ("TOOL_CALL: ".data ++ dumpJson d) = some (dumpJson d) := by
    rw [hsplit, hcons, findTC, ← hcons, hm]
  rw [parse_tool_call, hfind]
  simp only []
  rw [jsonLoads_dumpJson d, hd]
  simp only []
  rw [jGet, if_pos rfl, jGetD, if_neg (by decide), jGetD, if_pos rfl]

end Canctool
